import Mathlib

/-!
Shallow embedding of the Wikipedia link-path finder: file `ZXsZ.py` in the
source tree, directory `-60f2b468` under `src`, `Cursor`, `User`, `History`;
the search layer of the sibling file `JPq6.py` is identical.

Modelling conventions.

The MediaWiki API is modelled by a `WikiEnv`: `resolve` gives the canonical
title of a page (`none` when the page is missing), `fetchLinks` and
`fetchLinkshere` give the result of the full paginated fetch of outgoing and
incoming namespace-0 links for a resolved title (`Except.error` models a
raised exception such as `WikipediaAPIError`), and `sim` models the value of
`difflib.SequenceMatcher(None, a, b).ratio()` as a rational number.  The
environment is deterministic, which matches the program: the title and link
caches make every repeated call return the first computed value (this
transparency is exactly what claim C7 proves about `get_links` and
`get_linkshere`), so the search loops are modelled against the cacheless
value functions `links_of` and `linkshere_of`, while the caches themselves
are modelled separately in `get_links` and `get_linkshere`.

Python sets are modelled as duplicate-free lists; the list order models the
(arbitrary) set iteration order, and `next(iter(s))` is modelled as taking
the head of the filtered list.  Python dicts are modelled as association
lists read through `dget`, which returns the most recent binding, exactly
like dict assignment followed by `d.get(k)`.

Each search function additionally returns the final crawler bookkeeping
state (`crawl_graph` and `decision_info`, bundled in `Crawl`) and a trace of
events in program order: node dequeues, node enqueues, and calls to
`get_links` / `get_linkshere`.  Logging calls (`self.log`, `print`) have no
other effect and are not modelled.
-/

namespace Wiki

abbrev Title := String

/-- Deterministic model of the MediaWiki API as seen by one crawler process. -/
structure WikiEnv where
  resolve : Title → Option Title
  fetchLinks : Title → Except String (List Title)
  fetchLinkshere : Title → Except String (List Title)
  sim : String → String → ℚ

/-- Value computed by `WikiCrawler.get_links`: resolve the title (an
unresolvable title gives the empty set without any fetch), then fetch all
outgoing namespace-0 links into a set; `List.dedup` models collecting the
fetched titles into a Python set. -/
def links_of (env : WikiEnv) (t : Title) : Except String (List Title) :=
  match env.resolve t with
  | none => .ok []
  | some r =>
    match env.fetchLinks r with
    | .ok l => .ok l.dedup
    | .error e => .error e

/-- Value computed by `WikiCrawler.get_linkshere`, analogous to `links_of`. -/
def linkshere_of (env : WikiEnv) (t : Title) : Except String (List Title) :=
  match env.resolve t with
  | none => .ok []
  | some r =>
    match env.fetchLinkshere r with
    | .ok l => .ok l.dedup
    | .error e => .error e

/-- Models `try: neighbors = self.get_links(current) except: neighbors = set()`
appearing in all three search loops. -/
def links_or_empty (env : WikiEnv) (t : Title) : List Title :=
  match links_of env t with
  | .ok l => l
  | .error _ => []

/-- Models `try: incoming = self.get_linkshere(current) except: incoming = set()`
in the backward half of `find_path_bidi`. -/
def linkshere_or_empty (env : WikiEnv) (t : Title) : List Title :=
  match linkshere_of env t with
  | .ok l => l
  | .error _ => []

/-- Association-list lookup modelling Python dict access (`d.get(k)`,
`k in d`); the most recent binding wins, like dict assignment. -/
def dget {κ α : Type} [DecidableEq κ] : List (κ × α) → κ → Option α
  | [], _ => none
  | (k, v) :: rest, t => if k = t then some v else dget rest t

/-- Cache of `title -> set of titles`, as in `self.link_cache` and
`self.linkshere_cache`. -/
abbrev Cache := List (Title × List Title)

/-- `WikiCrawler.get_links` with its cache: resolve, return the cached set on
a hit, otherwise fetch, store and return.  The result triple is
(returned value, cache afterwards, whether an API fetch was performed).
A fetch that raises stores nothing (the exception propagates before the
cache assignment). -/
def get_links (env : WikiEnv) (c : Cache) (t : Title) :
    Except String (List Title) × Cache × Bool :=
  match env.resolve t with
  | none => (.ok [], c, false)
  | some r =>
    match dget c r with
    | some s => (.ok s, c, false)
    | none =>
      match env.fetchLinks r with
      | .ok l => (.ok l.dedup, (r, l.dedup) :: c, true)
      | .error e => (.error e, c, true)

/-- `WikiCrawler.get_linkshere` with its cache, analogous to `get_links`. -/
def get_linkshere (env : WikiEnv) (c : Cache) (t : Title) :
    Except String (List Title) × Cache × Bool :=
  match env.resolve t with
  | none => (.ok [], c, false)
  | some r =>
    match dget c r with
    | some s => (.ok s, c, false)
    | none =>
      match env.fetchLinkshere r with
      | .ok l => (.ok l.dedup, (r, l.dedup) :: c, true)
      | .error e => (.error e, c, true)

/-- Trace events of a search run: a node dequeued from a frontier, a node
enqueued, a call to `get_links`, a call to `get_linkshere`. -/
inductive Ev where
  | deq : Title → Ev
  | enq : Title → Ev
  | fl : Title → Ev
  | flh : Title → Ev
deriving DecidableEq

/-- One `decision_info` record; keys that a given assignment omits are
modelled as `none`. -/
structure Meta where
  method : String
  depth : Option Nat
  score : Option ℚ
  note : String
deriving DecidableEq

/-- The `networkx.DiGraph` used as `self.crawl_graph`, reduced to the
operations the program performs on it. -/
structure Graph where
  nodes : List Title
  edges : List (Title × Title)
deriving DecidableEq

/-- Models `if not G.has_node(n): G.add_node(n)`. -/
def Graph.addNodeIfAbsent (g : Graph) (n : Title) : Graph :=
  if n ∈ g.nodes then g else { g with nodes := g.nodes ++ [n] }

/-- Models `if not G.has_edge(a, b): G.add_edge(a, b)` (both endpoints are
already present at every call site). -/
def Graph.addEdgeIfAbsent (g : Graph) (e : Title × Title) : Graph :=
  if e ∈ g.edges then g else { g with edges := g.edges ++ [e] }

/-- The mutable bookkeeping of the crawler touched by the search functions:
`self.crawl_graph` and `self.decision_info`. -/
structure Crawl where
  graph : Graph
  dec : List ((Title × Title) × Meta)
deriving DecidableEq

/-- Models `self.decision_info[(a, b)] = meta` (assignment, most recent
binding wins under `dget`). -/
def setDec (st : Crawl) (k : Title × Title) (m : Meta) : Crawl :=
  { st with dec := (k, m) :: st.dec }

/-- Models the `for n in neighbors:` loop that records every seen link as a
node and an outgoing edge `current -> n` of the crawl graph. -/
def add_nbr_edges (st : Crawl) (current : Title) (ns : List Title) : Crawl :=
  ns.foldl (fun s n =>
    { s with graph := (s.graph.addNodeIfAbsent n).addEdgeIfAbsent (current, n) }) st

/-- Models the same loop in the backward half of `find_path_bidi`, where the
recorded edge is the incoming edge `n -> current`. -/
def add_in_edges (st : Crawl) (current : Title) (ns : List Title) : Crawl :=
  ns.foldl (fun s n =>
    { s with graph := (s.graph.addNodeIfAbsent n).addEdgeIfAbsent (n, current) }) st

/-- Errors raised by the search functions: `ValueError` for unresolvable
endpoints, `RuntimeError` for the visited cap. -/
inductive Err where
  | valueError : String → Err
  | runtimeError : String → Err
deriving DecidableEq

/-- Result of a search call: the returned value (`none` models Python `None`,
`some p` a found path), the crawler state afterwards, and the event trace. -/
abbrev SearchResult := Except Err (Option (List Title)) × Crawl × List Ev

/-- Queue entries of `find_path_bfs`: `(node, path, depth)`. -/
abbrev BfsEntry := Title × List Title × Nat

/-- The `for n in neighbors: if n not in visited: ...` enqueue loop of
`find_path_bfs`: append to the FIFO queue, add to the visited set and record
the decision, in neighbor iteration order. -/
def bfs_enqueue (current : Title) (path : List Title) (depth : Nat) :
    List Title → List BfsEntry → List Title → Crawl →
    List BfsEntry × List Title × Crawl × List Ev
  | [], q, visited, st => (q, visited, st, [])
  | n :: ns, q, visited, st =>
    if n ∈ visited then bfs_enqueue current path depth ns q visited st
    else
      let q' := q ++ [(n, path ++ [n], depth + 1)]
      let st' := setDec st (current, n)
        ⟨"bfs", some (depth + 1), none, "enqueued from " ++ current⟩
      let r := bfs_enqueue current path depth ns q' (n :: visited) st'
      (r.1, r.2.1, r.2.2.1, Ev.enq n :: r.2.2.2)

/-- The `while q:` loop of `find_path_bfs`.  Each iteration pops the FIFO
front, counts it, raises past the visited cap, skips expansion at the depth
cap, otherwise fetches the links (exceptions become the empty set), records
graph edges, returns through a direct neighbor hit, and enqueues the
unvisited neighbors. -/
def bfs_loop (env : WikiEnv) (target : Title) (maxDepth maxVisited : Nat)
    (q : List BfsEntry) (visited : List Title) (visitedCount : Nat) (st : Crawl) :
    SearchResult :=
  match q with
  | [] => (.ok none, st, [])
  | (current, path, depth) :: q' =>
    let vc := visitedCount + 1
    if vc > maxVisited then
      (.error (.runtimeError "Visited cap exceeded; aborting"), st, [Ev.deq current])
    else if maxDepth ≤ depth then
      let rest := bfs_loop env target maxDepth maxVisited q' visited vc st
      (rest.1, rest.2.1, Ev.deq current :: rest.2.2)
    else
      let neighbors := links_or_empty env current
      let st1 := add_nbr_edges st current neighbors
      if target ∈ neighbors then
        (.ok (some (path ++ [target])),
         setDec st1 (current, target)
           ⟨"bfs", some (depth + 1), none, "direct neighbor - target found"⟩,
         [Ev.deq current, Ev.fl current])
      else
        let er := bfs_enqueue current path depth neighbors q' visited st1
        let rest := bfs_loop env target maxDepth maxVisited er.1 er.2.1 vc er.2.2.1
        (rest.1, rest.2.1, Ev.deq current :: Ev.fl current :: (er.2.2.2 ++ rest.2.2))
termination_by maxVisited + 1 - visitedCount
decreasing_by all_goals omega

/-- `WikiCrawler.find_path_bfs`: resolve both endpoints (raising `ValueError`
before touching any state), reset the crawl graph and decisions, return the
trivial path when the endpoints coincide, otherwise run the BFS loop. -/
def find_path_bfs (env : WikiEnv) (st : Crawl) (start_title target_title : Title)
    (maxDepth maxVisited : Nat) : SearchResult :=
  match env.resolve start_title with
  | none => (.error (.valueError ("Start page not found: " ++ start_title)), st, [])
  | some start =>
    match env.resolve target_title with
    | none => (.error (.valueError ("Target page not found: " ++ target_title)), st, [])
    | some target =>
      let st0 : Crawl := { graph := { nodes := [start], edges := [] }, dec := [] }
      if start = target then (.ok (some [start]), st0, [])
      else bfs_loop env target maxDepth maxVisited [(start, [start], 0)] [start] 0 st0

/-- `WikiCrawler._title_score`: similarity ratio of the lowercased titles
plus 0.25 for every whitespace token of the lowercased target longer than
2 characters that occurs inside the lowercased candidate. -/
def _title_score (env : WikiEnv) (candidate_title target_title : String) : ℚ :=
  let base := env.sim candidate_title.toLower target_title.toLower
  let target_tokens := (target_title.toLower.split Char.isWhitespace).filter
    (fun tk => 2 < tk.length)
  let cand_lower := candidate_title.toLower
  let token_bonus := target_tokens.foldl
    (fun b tk => if tk.toList <:+: cand_lower.toList then b + 0.25 else b) 0
  base + token_bonus

/-- The `scored` list of one `find_path_best_first` expansion: every
unvisited neighbor paired with its heuristic score, in neighbor iteration
order. -/
def best_scored (env : WikiEnv) (target : Title) (visited : List Title)
    (neighbors : List Title) : List (ℚ × Title) :=
  (neighbors.filter (fun n => decide (n ∉ visited))).map
    (fun n => (_title_score env n target, n))

/-- The `top_neighbors` list of one `find_path_best_first` expansion: the
scored pairs sorted by descending score (a stable sort, as in Python) and
cut to the first `max_branch`. -/
def best_top (scored : List (ℚ × Title)) (maxBranch : Nat) : List (ℚ × Title) :=
  (scored.mergeSort (fun a b => decide (b.1 ≤ a.1))).take maxBranch

/-- Heap entries of `find_path_best_first`, modelling the pushed tuples
`(-score, depth, uid, node, path)`. -/
structure BEntry where
  negScore : ℚ
  depth : Nat
  uid : Nat
  node : Title
  path : List Title
deriving DecidableEq

/-- Lexicographic comparison on `(negScore, depth, uid)`, modelling the
Python tuple order used by `heapq`; the `uid` component is distinct across
entries pushed by the program, so the remaining components are never
compared. -/
def bentry_le (a b : BEntry) : Bool :=
  decide (a.negScore < b.negScore) ||
  (decide (a.negScore = b.negScore) &&
    (decide (a.depth < b.depth) ||
     (decide (a.depth = b.depth) && decide (a.uid ≤ b.uid))))

/-- Models `heapq.heappop`: remove and return a least element of the heap
(with respect to `bentry_le`); on ties the earliest is chosen, which never
matters because `uid` values are distinct in program states. -/
def heap_pop : List BEntry → Option (BEntry × List BEntry)
  | [] => none
  | e :: es =>
    match heap_pop es with
    | none => some (e, [])
    | some (m, rest) => if bentry_le e m then some (e, es) else some (m, e :: rest)

/-- The `for sc, n in top_neighbors:` push loop of `find_path_best_first`:
add to visited, bump the uid counter, push onto the heap and record the
decision. `topN` is `len(top_neighbors)` as used in the note text. -/
def best_enqueue (current : Title) (path : List Title) (depth topN : Nat) :
    List (ℚ × Title) → List BEntry → List Title → Nat → Crawl →
    List BEntry × List Title × Nat × Crawl × List Ev
  | [], heap, visited, uid, st => (heap, visited, uid, st, [])
  | (sc, n) :: rest, heap, visited, uid, st =>
    if n ∈ visited then best_enqueue current path depth topN rest heap visited uid st
    else
      let uid' := uid + 1
      let heap' := (⟨-sc, depth + 1, uid', n, path ++ [n]⟩ : BEntry) :: heap
      let st' := setDec st (current, n)
        ⟨"best", some (depth + 1), some sc,
          "enqueued by heuristic (top " ++ toString topN ++ ")"⟩
      let r := best_enqueue current path depth topN rest heap' (n :: visited) uid' st'
      (r.1, r.2.1, r.2.2.1, r.2.2.2.1, Ev.enq n :: r.2.2.2.2)

/-- The `while heap:` loop of `find_path_best_first`: pop the entry with the
least `(-score, depth, uid)`, count it, raise past the visited cap, skip
expansion at the depth cap, fetch links, record graph edges, return through
a direct neighbor hit, otherwise score the unvisited neighbors, sort them by
descending score (stably, as `list.sort` does) and push the first
`max_branch` of them. -/
def bestfirst_loop (env : WikiEnv) (target : Title) (maxDepth maxVisited maxBranch : Nat)
    (heap : List BEntry) (visited : List Title) (visitedCount uid : Nat) (st : Crawl) :
    SearchResult :=
  match heap_pop heap with
  | none => (.ok none, st, [])
  | some (e, heap') =>
    let vc := visitedCount + 1
    if vc > maxVisited then
      (.error (.runtimeError "Visited cap exceeded; aborting"), st, [Ev.deq e.node])
    else if maxDepth ≤ e.depth then
      let rest := bestfirst_loop env target maxDepth maxVisited maxBranch heap' visited vc uid st
      (rest.1, rest.2.1, Ev.deq e.node :: rest.2.2)
    else
      let neighbors := links_or_empty env e.node
      let st1 := add_nbr_edges st e.node neighbors
      if target ∈ neighbors then
        (.ok (some (e.path ++ [target])),
         setDec st1 (e.node, target)
           ⟨"best", some (e.depth + 1), none, "direct neighbor - target found"⟩,
         [Ev.deq e.node, Ev.fl e.node])
      else
        let scored := best_scored env target visited neighbors
        if scored = [] then
          let rest := bestfirst_loop env target maxDepth maxVisited maxBranch heap' visited vc uid st1
          (rest.1, rest.2.1, Ev.deq e.node :: Ev.fl e.node :: rest.2.2)
        else
          let top := best_top scored maxBranch
          let r := best_enqueue e.node e.path e.depth top.length top heap' visited uid st1
          let rest := bestfirst_loop env target maxDepth maxVisited maxBranch
            r.1 r.2.1 vc r.2.2.1 r.2.2.2.1
          (rest.1, rest.2.1,
           Ev.deq e.node :: Ev.fl e.node :: (r.2.2.2.2 ++ rest.2.2))
termination_by maxVisited + 1 - visitedCount
decreasing_by all_goals omega

/-- `WikiCrawler.find_path_best_first`: resolve both endpoints (raising
`ValueError` before touching any state), reset the bookkeeping, return the
trivial path when the endpoints coincide, otherwise seed the heap with the
start entry (uid 0, counter 1 afterwards) and run the loop. -/
def find_path_best_first (env : WikiEnv) (st : Crawl) (start_title target_title : Title)
    (maxDepth maxVisited maxBranch : Nat) : SearchResult :=
  match env.resolve start_title with
  | none => (.error (.valueError ("Start page not found: " ++ start_title)), st, [])
  | some start =>
    match env.resolve target_title with
    | none => (.error (.valueError ("Target page not found: " ++ target_title)), st, [])
    | some target =>
      let st0 : Crawl := { graph := { nodes := [start], edges := [] }, dec := [] }
      if start = target then (.ok (some [start]), st0, [])
      else
        let start_score := _title_score env start target
        bestfirst_loop env target maxDepth maxVisited maxBranch
          [⟨-start_score, 0, 0, start, [start]⟩] [start] 0 1 st0

/-- The `while node is not None:` walk of `_reconstruct_bidi_path` along
`parent_fwd`, before reversal.  The fuel argument only guards against cyclic
parent maps, which the program never builds; every call passes enough fuel
for any duplicate-free parent map. -/
def chain_fwd (pf : List (Title × Title)) : Nat → Title → List Title
  | 0, node => [node]
  | fuel + 1, node =>
    node :: (match dget pf node with
      | none => []
      | some p => chain_fwd pf fuel p)

/-- The `while cur is not None and cur != target:` walk of
`_reconstruct_bidi_path` along `parent_bwd`, collecting the successors of the
meeting node.  Fuel as in `chain_fwd`. -/
def chain_bwd (pb : List (Title × Title)) (target : Title) : Nat → Title → List Title
  | 0, _ => []
  | fuel + 1, cur =>
    if cur = target then []
    else
      match dget pb cur with
      | none => []
      | some nxt => nxt :: chain_bwd pb target fuel nxt

/-- `WikiCrawler._reconstruct_bidi_path`: walk `parent_fwd` from the meeting
node and reverse, walk `parent_bwd` from the meeting node, concatenate, then
patch the endpoints when they differ from start and target.  The initial
bindings `{start: None}` and `{target: None}` behave exactly like absent
keys under `.get`, so the parent maps start empty here. -/
def _reconstruct_bidi_path (pf pb : List (Title × Title))
    (meeting_node start target : Title) : List Title :=
  let left := (chain_fwd pf (pf.length + 1) meeting_node).reverse
  let right := chain_bwd pb target (pb.length + 1) meeting_node
  let full0 := left ++ right
  let full1 := if full0.head? = some start then full0 else start :: full0
  if full1.getLast? = some target then full1 else full1 ++ [target]

/-- The forward enqueue loop of `find_path_bidi`: for every unvisited
neighbor, add it to `visited_fwd`, record its parent, append it to the
forward queue and record the decision. -/
def bidi_enqueue_fwd (current : Title) (depth : Nat) :
    List Title → List (Title × Nat) → List Title → List (Title × Title) → Crawl →
    List (Title × Nat) × List Title × List (Title × Title) × Crawl × List Ev
  | [], qf, vf, pf, st => (qf, vf, pf, st, [])
  | n :: ns, qf, vf, pf, st =>
    if n ∈ vf then bidi_enqueue_fwd current depth ns qf vf pf st
    else
      let vf' := n :: vf
      let pf' := (n, current) :: pf
      let qf' := qf ++ [(n, depth + 1)]
      let st' := setDec st (current, n)
        ⟨"bidi_fwd", some (depth + 1), none, "forward enqueued from " ++ current⟩
      let r := bidi_enqueue_fwd current depth ns qf' vf' pf' st'
      (r.1, r.2.1, r.2.2.1, r.2.2.2.1, Ev.enq n :: r.2.2.2.2)

/-- The backward enqueue loop of `find_path_bidi`: for every node of the
incoming set not yet in `visited_bwd`, add it, record its backward parent,
append it to the backward queue and record the decision (keyed `(n, current)`
because the underlying edge is `n -> current`). -/
def bidi_enqueue_bwd (current : Title) (depth : Nat) :
    List Title → List (Title × Nat) → List Title → List (Title × Title) → Crawl →
    List (Title × Nat) × List Title × List (Title × Title) × Crawl × List Ev
  | [], qb, vb, pb, st => (qb, vb, pb, st, [])
  | n :: ns, qb, vb, pb, st =>
    if n ∈ vb then bidi_enqueue_bwd current depth ns qb vb pb st
    else
      let vb' := n :: vb
      let pb' := (n, current) :: pb
      let qb' := qb ++ [(n, depth + 1)]
      let st' := setDec st (n, current)
        ⟨"bidi_bwd", some (depth + 1), none,
          "backward enqueued: " ++ n ++ " links to " ++ current⟩
      let r := bidi_enqueue_bwd current depth ns qb' vb' pb' st'
      (r.1, r.2.1, r.2.2.1, r.2.2.2.1, Ev.enq n :: r.2.2.2.2)

/-- The `while q_fwd and q_bwd:` loop of `find_path_bidi`.  When the forward
queue is not larger the forward side is expanded (pop, count, cap, depth cap,
fetch outgoing links, record edges, terminate on intersection with
`visited_bwd`, else enqueue); otherwise the backward side is expanded
symmetrically via incoming links and `visited_fwd`. -/
def bidi_loop (env : WikiEnv) (start target : Title) (maxDepth maxVisited : Nat)
    (qf qb : List (Title × Nat)) (vf vb : List Title)
    (pf pb : List (Title × Title)) (visitedCount : Nat) (st : Crawl) :
    SearchResult :=
  match qf, qb with
  | [], _ => (.ok none, st, [])
  | _ :: _, [] => (.ok none, st, [])
  | (c, d) :: qf', (cb, db) :: qb' =>
    if ((c, d) :: qf').length ≤ ((cb, db) :: qb').length then
      let vc := visitedCount + 1
      if vc > maxVisited then
        (.error (.runtimeError "Visited cap exceeded; aborting"), st, [Ev.deq c])
      else if maxDepth ≤ d then
        let rest := bidi_loop env start target maxDepth maxVisited
          qf' ((cb, db) :: qb') vf vb pf pb vc st
        (rest.1, rest.2.1, Ev.deq c :: rest.2.2)
      else
        let neighbors := links_or_empty env c
        let st1 := add_nbr_edges st c neighbors
        let inter := neighbors.filter (fun n => decide (n ∈ vb))
        match inter with
        | meet :: _ =>
          let st2 := match dget st1.dec (c, meet) with
            | some _ => st1
            | none => setDec st1 (c, meet)
                ⟨"bidi_fwd", some (d + 1), none, "meeting edge (found by forward expansion)"⟩
          (.ok (some (_reconstruct_bidi_path pf pb meet start target)), st2,
           [Ev.deq c, Ev.fl c])
        | [] =>
          let r := bidi_enqueue_fwd c d neighbors qf' vf pf st1
          let rest := bidi_loop env start target maxDepth maxVisited
            r.1 ((cb, db) :: qb') r.2.1 vb r.2.2.1 pb vc r.2.2.2.1
          (rest.1, rest.2.1, Ev.deq c :: Ev.fl c :: (r.2.2.2.2 ++ rest.2.2))
    else
      let vc := visitedCount + 1
      if vc > maxVisited then
        (.error (.runtimeError "Visited cap exceeded; aborting"), st, [Ev.deq cb])
      else if maxDepth ≤ db then
        let rest := bidi_loop env start target maxDepth maxVisited
          ((c, d) :: qf') qb' vf vb pf pb vc st
        (rest.1, rest.2.1, Ev.deq cb :: rest.2.2)
      else
        let incoming := linkshere_or_empty env cb
        let st1 := add_in_edges st cb incoming
        let inter := incoming.filter (fun n => decide (n ∈ vf))
        match inter with
        | meet :: _ =>
          let st2 := match dget st1.dec (meet, cb) with
            | some _ => st1
            | none => setDec st1 (meet, cb)
                ⟨"bidi_bwd", some (db + 1), none, "meeting edge (found by backward expansion)"⟩
          (.ok (some (_reconstruct_bidi_path pf pb meet start target)), st2,
           [Ev.deq cb, Ev.flh cb])
        | [] =>
          let r := bidi_enqueue_bwd cb db incoming qb' vb pb st1
          let rest := bidi_loop env start target maxDepth maxVisited
            ((c, d) :: qf') r.1 vf r.2.1 pf r.2.2.1 vc r.2.2.2.1
          (rest.1, rest.2.1, Ev.deq cb :: Ev.flh cb :: (r.2.2.2.2 ++ rest.2.2))
termination_by maxVisited + 1 - visitedCount
decreasing_by all_goals omega

/-- `WikiCrawler.find_path_bidi`: resolve both endpoints (raising
`ValueError` first), return the trivial path when they coincide (in this
function the check precedes the bookkeeping reset, so the state is left
untouched), otherwise reset the bookkeeping with both endpoints as nodes and
run the bidirectional loop from singleton frontiers. -/
def find_path_bidi (env : WikiEnv) (st : Crawl) (start_title target_title : Title)
    (maxDepth maxVisited : Nat) : SearchResult :=
  match env.resolve start_title with
  | none => (.error (.valueError ("Start page not found: " ++ start_title)), st, [])
  | some start =>
    match env.resolve target_title with
    | none => (.error (.valueError ("Target page not found: " ++ target_title)), st, [])
    | some target =>
      if start = target then (.ok (some [start]), st, [])
      else
        let st0 : Crawl := { graph := { nodes := [start, target], edges := [] }, dec := [] }
        bidi_loop env start target maxDepth maxVisited
          [(start, 0)] [(target, 0)] [start] [target] [] [] 0 st0

/-- The link graph seen through `get_links`: there is an edge from `a` to `b`
exactly when `b` is in the link set that `get_links a` computes. -/
def adjacent (env : WikiEnv) (a b : Title) : Prop :=
  b ∈ links_or_empty env a

/-- A path in the link graph from `s` to `t`: consecutive entries are edges,
the path starts at `s` and ends at `t`. -/
def ValidPath (env : WikiEnv) (s t : Title) (p : List Title) : Prop :=
  p.Chain' (adjacent env) ∧ p.head? = some s ∧ p.getLast? = some t

/-- Concrete four-page wiki used as a test world: a single link chain
`S -> A -> B -> T`, with the matching incoming links. -/
def envChain : WikiEnv where
  resolve := fun t => if t = "S" ∨ t = "A" ∨ t = "B" ∨ t = "T" then some t else none
  fetchLinks := fun t =>
    if t = "S" then .ok ["A"] else if t = "A" then .ok ["B"]
    else if t = "B" then .ok ["T"] else .ok []
  fetchLinkshere := fun t =>
    if t = "T" then .ok ["B"] else if t = "B" then .ok ["A"]
    else if t = "A" then .ok ["S"] else .ok []
  sim := fun _ _ => 0

/-- Concrete wiki with two routes `S -> T` and `S -> A -> T`, used to watch
the searches pick the short one. -/
def envTwo : WikiEnv where
  resolve := fun t => if t = "S" ∨ t = "A" ∨ t = "T" then some t else none
  fetchLinks := fun t =>
    if t = "S" then .ok ["A", "T"] else if t = "A" then .ok ["T"] else .ok []
  fetchLinkshere := fun t =>
    if t = "T" then .ok ["S", "A"] else if t = "A" then .ok ["S"] else .ok []
  sim := fun _ _ => 0

/-- The chain wiki with the link fetch of page `B` raising an exception. -/
def envErr : WikiEnv :=
  { envChain with fetchLinks := fun t =>
      if t = "B" then .error "boom" else envChain.fetchLinks t }

/-- An empty crawler bookkeeping state. -/
def st00 : Crawl := { graph := { nodes := [], edges := [] }, dec := [] }

/-- Titles of the dequeue events of a trace, in order. -/
def deqs : List Ev → List Title
  | [] => []
  | Ev.deq t :: rest => t :: deqs rest
  | Ev.enq _ :: rest => deqs rest
  | Ev.fl _ :: rest => deqs rest
  | Ev.flh _ :: rest => deqs rest

/-- Titles of the enqueue events of a trace, in order. -/
def enqs : List Ev → List Title
  | [] => []
  | Ev.deq _ :: rest => enqs rest
  | Ev.enq t :: rest => t :: enqs rest
  | Ev.fl _ :: rest => enqs rest
  | Ev.flh _ :: rest => enqs rest

end Wiki

namespace Wiki

/-- Unfolding of `dget` on a nonempty association list. -/
theorem dget_cons {κ α : Type} [DecidableEq κ] (k : κ) (v : α) (rest : List (κ × α)) (t : κ) :
    dget ((k, v) :: rest) t = if k = t then some v else dget rest t := rfl

unseal bidi_loop bfs_loop in
/-- C2.  The reconstruction claim fails on the code: on the four-page chain
wiki, the frontiers meet while the forward side is expanding `B`, the meeting
node `T` never received a forward parent pointer, and the returned sequence
`[S, T]` skips the whole forward chain even though `S -> T` is not an edge of
the explored graph (the true link path `[S, A, B, T]` exists and is returned
by BFS on the same wiki). -/
theorem claim_C2_bug :
    (find_path_bidi envChain st00 "S" "T" 6 100).1 = .ok (some ["S", "T"]) ∧
    ¬ adjacent envChain "S" "T" ∧
    ValidPath envChain "S" "T" ["S", "A", "B", "T"] ∧
    (find_path_bfs envChain st00 "S" "T" 6 100).1 = .ok (some ["S", "A", "B", "T"]) := by
  refine ⟨rfl, ?_, ⟨?_, rfl, rfl⟩, rfl⟩
  · unfold adjacent
    decide
  · simp only [List.chain'_cons, List.chain'_singleton, and_true]
    unfold adjacent
    refine ⟨?_, ?_, ?_⟩ <;> decide

/-- C7.  The link caches are process-lifetime memoization with no eviction:
a call whose resolved title is cached returns the cached set without a
fetch and leaves the cache unchanged; once a call has fetched and stored a
set, any later call with any title resolving to the same page returns that
very set without a fetch; and no cache entry is ever removed or replaced. -/
theorem claim_C7 (env : WikiEnv) (c : Cache) (t t2 r : Title) (s : List Title) :
    (env.resolve t = some r → dget c r = some s →
      get_links env c t = (.ok s, c, false) ∧
      get_linkshere env c t = (.ok s, c, false)) ∧
    (env.resolve t = some r → env.resolve t2 = some r →
      (∀ l c', get_links env c t = (.ok l, c', true) →
        get_links env c' t2 = (.ok l, c', false)) ∧
      (∀ l c', get_linkshere env c t = (.ok l, c', true) →
        get_linkshere env c' t2 = (.ok l, c', false))) ∧
    (∀ k v, dget c k = some v →
      dget (get_links env c t).2.1 k = some v ∧
      dget (get_linkshere env c t).2.1 k = some v) := by
  refine ⟨?_, ?_, ?_⟩
  · intro ht hc
    constructor <;> simp [get_links, get_linkshere, ht, hc]
  · intro ht ht2
    constructor
    · intro l c' h
      rw [show get_links env c t =
          (match dget c r with
           | some s => (.ok s, c, false)
           | none =>
             match env.fetchLinks r with
             | .ok l => (.ok l.dedup, (r, l.dedup) :: c, true)
             | .error e => (.error e, c, true)) by rw [get_links, ht]] at h
      cases hcr : dget c r with
      | some s2 => rw [hcr] at h; simp at h
      | none =>
        rw [hcr] at h
        cases hf : env.fetchLinks r with
        | ok l0 =>
          rw [hf] at h
          simp only [Prod.mk.injEq, Except.ok.injEq] at h
          obtain ⟨h1, h2, -⟩ := h
          subst h2
          simp [get_links, ht2, dget_cons, h1]
        | error e => rw [hf] at h; simp at h
    · intro l c' h
      rw [show get_linkshere env c t =
          (match dget c r with
           | some s => (.ok s, c, false)
           | none =>
             match env.fetchLinkshere r with
             | .ok l => (.ok l.dedup, (r, l.dedup) :: c, true)
             | .error e => (.error e, c, true)) by rw [get_linkshere, ht]] at h
      cases hcr : dget c r with
      | some s2 => rw [hcr] at h; simp at h
      | none =>
        rw [hcr] at h
        cases hf : env.fetchLinkshere r with
        | ok l0 =>
          rw [hf] at h
          simp only [Prod.mk.injEq, Except.ok.injEq] at h
          obtain ⟨h1, h2, -⟩ := h
          subst h2
          simp [get_linkshere, ht2, dget_cons, h1]
        | error e => rw [hf] at h; simp at h
  · intro k v hk
    constructor
    · rw [get_links]
      cases env.resolve t with
      | none => exact hk
      | some r =>
        cases hcr : dget c r with
        | some s2 => simp [hcr, hk]
        | none =>
          cases hf : env.fetchLinks r with
          | ok l0 =>
            simp only [hcr, hf, dget_cons]
            by_cases hrk : r = k
            · subst hrk; rw [hk] at hcr; exact absurd hcr (by simp)
            · simp [hrk, hk]
          | error e => simp [hcr, hf, hk]
    · rw [get_linkshere]
      cases env.resolve t with
      | none => exact hk
      | some r =>
        cases hcr : dget c r with
        | some s2 => simp [hcr, hk]
        | none =>
          cases hf : env.fetchLinkshere r with
          | ok l0 =>
            simp only [hcr, hf, dget_cons]
            by_cases hrk : r = k
            · subst hrk; rw [hk] at hcr; exact absurd hcr (by simp)
            · simp [hrk, hk]
          | error e => simp [hcr, hf, hk]

/-- Witness for C7 at concrete inputs: a cache hit on the chain wiki. -/
theorem claim_C7_witness :
    envChain.resolve "B" = some "B" ∧
    dget [("B", ["X"])] "B" = some ["X"] ∧
    get_links envChain [("B", ["X"])] "B" = (.ok ["X"], [("B", ["X"])], false) := by
  refine ⟨rfl, rfl, ?_⟩
  exact ((claim_C7 envChain [("B", ["X"])] "B" "B" "B" ["X"]).1 rfl rfl).1

/-- C9.  When the two endpoints resolve to the same page, each of the three
search functions returns the one-node path of the resolved title at once:
the event trace is empty, so no link fetch and no enqueue happened. -/
theorem claim_C9 (env : WikiEnv) (st : Crawl) (s t : Title) (md mv mb : Nat) (r : Title)
    (hs : env.resolve s = some r) (ht : env.resolve t = some r) :
    find_path_bfs env st s t md mv =
      (.ok (some [r]), { graph := { nodes := [r], edges := [] }, dec := [] }, []) ∧
    find_path_best_first env st s t md mv mb =
      (.ok (some [r]), { graph := { nodes := [r], edges := [] }, dec := [] }, []) ∧
    find_path_bidi env st s t md mv = (.ok (some [r]), st, []) := by
  refine ⟨?_, ?_, ?_⟩ <;>
    simp [find_path_bfs, find_path_best_first, find_path_bidi, hs, ht]

/-- Witness for C9: both endpoints resolve to the page `A` of the chain wiki. -/
theorem claim_C9_witness :
    envChain.resolve "A" = some "A" ∧
    find_path_bfs envChain st00 "A" "A" 6 100 =
      (.ok (some ["A"]), { graph := { nodes := ["A"], edges := [] }, dec := [] }, []) := by
  exact ⟨rfl, (claim_C9 envChain st00 "A" "A" 6 100 50 "A" rfl rfl).1⟩

/-- C10.  When an endpoint does not resolve, each of the three search
functions raises `ValueError` naming the missing page, performs no search
(the trace is empty) and leaves the crawler bookkeeping untouched (the
state component of the result is the input state). -/
theorem claim_C10 (env : WikiEnv) (st : Crawl) (s t : Title) (md mv mb : Nat) :
    (env.resolve s = none →
      find_path_bfs env st s t md mv =
        (.error (.valueError ("Start page not found: " ++ s)), st, []) ∧
      find_path_best_first env st s t md mv mb =
        (.error (.valueError ("Start page not found: " ++ s)), st, []) ∧
      find_path_bidi env st s t md mv =
        (.error (.valueError ("Start page not found: " ++ s)), st, [])) ∧
    (∀ r, env.resolve s = some r → env.resolve t = none →
      find_path_bfs env st s t md mv =
        (.error (.valueError ("Target page not found: " ++ t)), st, []) ∧
      find_path_best_first env st s t md mv mb =
        (.error (.valueError ("Target page not found: " ++ t)), st, []) ∧
      find_path_bidi env st s t md mv =
        (.error (.valueError ("Target page not found: " ++ t)), st, [])) := by
  constructor
  · intro hs
    refine ⟨?_, ?_, ?_⟩ <;>
      simp [find_path_bfs, find_path_best_first, find_path_bidi, hs]
  · intro r hs ht
    refine ⟨?_, ?_, ?_⟩ <;>
      simp [find_path_bfs, find_path_best_first, find_path_bidi, hs, ht]

/-- Witness for C10: the title `X` is missing from the chain wiki. -/
theorem claim_C10_witness :
    envChain.resolve "X" = none ∧
    find_path_bfs envChain st00 "X" "T" 6 100 =
      (.error (.valueError ("Start page not found: " ++ "X")), st00, []) := by
  exact ⟨rfl, ((claim_C10 envChain st00 "X" "T" 6 100 50).1 rfl).1⟩

/-- C3.  In every iteration of the `find_path_bidi` main loop with both
queues nonempty, the side chosen is the smaller frontier with ties going
forward: the dequeued node comes from the forward queue exactly when the
forward queue is not larger, and in that case the fetch this iteration
performs (when the cap and the depth cap allow an expansion) is `get_links`
on that node; otherwise the dequeued node comes from the backward queue and
the fetch is `get_linkshere` on it. -/
theorem claim_C3 (env : WikiEnv) (start target : Title) (maxDepth maxVisited : Nat)
    (qf qb : List (Title × Nat)) (vf vb : List Title) (pf pb : List (Title × Title))
    (vc : Nat) (st : Crawl) (hf : qf ≠ []) (hb : qb ≠ []) :
    (qf.length ≤ qb.length →
      ∃ c d qf', qf = (c, d) :: qf' ∧
        ((bidi_loop env start target maxDepth maxVisited qf qb vf vb pf pb vc st).2.2).head?
          = some (Ev.deq c) ∧
        (vc + 1 ≤ maxVisited → d < maxDepth →
          ((bidi_loop env start target maxDepth maxVisited qf qb vf vb pf pb vc st).2.2).take 2
            = [Ev.deq c, Ev.fl c])) ∧
    (qb.length < qf.length →
      ∃ cb db qb', qb = (cb, db) :: qb' ∧
        ((bidi_loop env start target maxDepth maxVisited qf qb vf vb pf pb vc st).2.2).head?
          = some (Ev.deq cb) ∧
        (vc + 1 ≤ maxVisited → db < maxDepth →
          ((bidi_loop env start target maxDepth maxVisited qf qb vf vb pf pb vc st).2.2).take 2
            = [Ev.deq cb, Ev.flh cb])) := by
  obtain ⟨⟨c, d⟩, qf', rfl⟩ : ∃ e qf', qf = e :: qf' := by
    cases qf with
    | nil => exact absurd rfl hf
    | cons e qf' => exact ⟨e, qf', rfl⟩
  obtain ⟨⟨cb, db⟩, qb', rfl⟩ : ∃ e qb', qb = e :: qb' := by
    cases qb with
    | nil => exact absurd rfl hb
    | cons e qb' => exact ⟨e, qb', rfl⟩
  rw [bidi_loop.eq_def]
  dsimp only
  constructor
  · intro hlen
    refine ⟨c, d, qf', rfl, ?_⟩
    rw [if_pos hlen]
    by_cases hcap : vc + 1 > maxVisited
    · rw [if_pos hcap]
      exact ⟨rfl, fun h1 _ => absurd hcap (by omega)⟩
    · rw [if_neg hcap]
      by_cases hdep : maxDepth ≤ d
      · rw [if_pos hdep]
        exact ⟨rfl, fun _ h2 => absurd hdep (by omega)⟩
      · rw [if_neg hdep]
        cases hi : (links_or_empty env c).filter (fun n => decide (n ∈ vb)) with
        | nil => simp [hi]
        | cons meet rest => simp [hi]
  · intro hlt
    refine ⟨cb, db, qb', rfl, ?_⟩
    have hlen : ¬ ((c, d) :: qf').length ≤ ((cb, db) :: qb').length := by
      intro hcon
      omega
    rw [if_neg hlen]
    by_cases hcap : vc + 1 > maxVisited
    · rw [if_pos hcap]
      exact ⟨rfl, fun h1 _ => absurd hcap (by omega)⟩
    · rw [if_neg hcap]
      by_cases hdep : maxDepth ≤ db
      · rw [if_pos hdep]
        exact ⟨rfl, fun _ h2 => absurd hdep (by omega)⟩
      · rw [if_neg hdep]
        cases hi : (linkshere_or_empty env cb).filter (fun n => decide (n ∈ vf)) with
        | nil => simp [hi]
        | cons meet rest => simp [hi]

/-- Witness for C3 at a concrete loop state of the chain wiki: singleton
frontiers at the roots, where the tie selects the forward side. -/
theorem claim_C3_witness :
    ([("S", 0)] : List (Title × Nat)) ≠ [] ∧
    ([("T", 0)] : List (Title × Nat)) ≠ [] ∧
    (([("S", 0)] : List (Title × Nat)).length ≤ ([("T", 0)] : List (Title × Nat)).length →
      ∃ c d qf', ([("S", 0)] : List (Title × Nat)) = (c, d) :: qf' ∧
        ((bidi_loop envChain "S" "T" 6 100 [("S", 0)] [("T", 0)] ["S"] ["T"] [] [] 0 st00).2.2).head?
          = some (Ev.deq c) ∧
        (0 + 1 ≤ 100 → d < 6 →
          ((bidi_loop envChain "S" "T" 6 100 [("S", 0)] [("T", 0)] ["S"] ["T"] [] [] 0 st00).2.2).take 2
            = [Ev.deq c, Ev.fl c])) := by
  refine ⟨by decide, by decide, ?_⟩
  exact (claim_C3 envChain "S" "T" 6 100 [("S", 0)] [("T", 0)] ["S"] ["T"] [] [] 0 st00
    (by decide) (by decide)).1

/-- A true comparison `bentry_le` bounds the first components. -/
theorem bentry_le_negScore {a b : BEntry} (h : bentry_le a b = true) :
    a.negScore ≤ b.negScore := by
  simp only [bentry_le, Bool.or_eq_true, Bool.and_eq_true, decide_eq_true_eq] at h
  rcases h with h | ⟨h, -⟩
  · exact le_of_lt h
  · exact le_of_eq h

/-- A false comparison `bentry_le` bounds the first components the other way. -/
theorem bentry_le_negScore_of_false {a b : BEntry} (h : bentry_le a b = false) :
    b.negScore ≤ a.negScore := by
  simp only [bentry_le, Bool.or_eq_false_iff, Bool.and_eq_false_iff,
    decide_eq_false_iff_not] at h
  exact le_of_not_lt h.1

/-- The empty heap is the only heap `heap_pop` rejects. -/
theorem heap_pop_eq_none {h : List BEntry} (hp : heap_pop h = none) : h = [] := by
  cases h with
  | nil => rfl
  | cons a es =>
    rw [heap_pop] at hp
    cases hes : heap_pop es with
    | none => rw [hes] at hp; simp at hp
    | some me => rw [hes] at hp; cases me with | mk m rest => cases hle : bentry_le a m <;>
        simp [hle] at hp

/-- The popped entry belongs to the heap and has the least `negScore`
(hence the greatest score) among all heap entries. -/
theorem heap_pop_mem_min :
    ∀ (h : List BEntry) (e : BEntry) (h' : List BEntry),
      heap_pop h = some (e, h') → e ∈ h ∧ ∀ x ∈ h, e.negScore ≤ x.negScore := by
  intro h
  induction h with
  | nil => intro e h' hp; simp [heap_pop] at hp
  | cons a es ih =>
    intro e h' hp
    rw [heap_pop] at hp
    cases hes : heap_pop es with
    | none =>
      rw [hes] at hp
      simp only [Option.some.injEq, Prod.mk.injEq] at hp
      obtain ⟨rfl, rfl⟩ := hp
      have : es = [] := heap_pop_eq_none hes
      subst this
      exact ⟨List.mem_singleton_self _, by intro x hx; simp at hx; subst hx; exact le_refl _⟩
    | some me =>
      obtain ⟨m, rest⟩ := me
      rw [hes] at hp
      cases hle : bentry_le a m with
      | true =>
        simp only [hle, if_true, Option.some.injEq, Prod.mk.injEq] at hp
        obtain ⟨rfl, rfl⟩ := hp
        refine ⟨List.mem_cons_self _ _, ?_⟩
        intro x hx
        rcases List.mem_cons.mp hx with rfl | hx
        · exact le_refl _
        · exact le_trans (bentry_le_negScore hle) ((ih m rest hes).2 x hx)
      | false =>
        simp only [hle, Bool.false_eq_true, if_false, Option.some.injEq, Prod.mk.injEq] at hp
        obtain ⟨h1, rfl⟩ := hp
        subst h1
        refine ⟨List.mem_cons_of_mem _ (ih m rest hes).1, ?_⟩
        intro x hx
        rcases List.mem_cons.mp hx with rfl | hx
        · exact bentry_le_negScore_of_false hle
        · exact (ih m rest hes).2 x hx

/-- Folding the token bonus accumulates 0.25 per token satisfying the
membership test. -/
theorem bonus_foldl (P : String → Prop) [DecidablePred P] (l : List String) (b : ℚ) :
    l.foldl (fun acc tk => if P tk then acc + 0.25 else acc) b
      = b + (1 / 4) * (l.filter (fun tk => decide (P tk))).length := by
  induction l generalizing b with
  | nil => simp
  | cons x xs ih =>
    by_cases hx : P x
    · rw [List.foldl_cons, if_pos hx, ih, List.filter_cons_of_pos (by simpa using hx)]
      simp only [List.length_cons]
      push_cast
      ring
    · rw [List.foldl_cons, if_neg hx, ih, List.filter_cons_of_neg (by simpa using hx)]

/-- C5.  The heuristic score is the similarity ratio of the lowercased
titles plus a bonus of one quarter for each whitespace token of the
lowercased target longer than two characters that occurs inside the
lowercased candidate; and the best-first loop always expands next an entry
of greatest score: the popped entry has the least stored `negScore`
(negated score) among all entries in the heap, and it is the node the loop
dequeues next. -/
theorem claim_C5 (env : WikiEnv) (cand tgt : String)
    (target : Title) (maxDepth maxVisited maxBranch : Nat)
    (heap : List BEntry) (visited : List Title) (vc uid : Nat) (st : Crawl)
    (e : BEntry) (h' : List BEntry) :
    _title_score env cand tgt =
      env.sim cand.toLower tgt.toLower +
        (1 / 4) * (((tgt.toLower.split Char.isWhitespace).filter (fun tk => 2 < tk.length)).filter
          (fun tk => decide (tk.toList <:+: cand.toLower.toList))).length ∧
    (heap_pop heap = some (e, h') →
      (e ∈ heap ∧ ∀ x ∈ heap, e.negScore ≤ x.negScore) ∧
      ((bestfirst_loop env target maxDepth maxVisited maxBranch heap visited vc uid st).2.2).head?
        = some (Ev.deq e.node)) := by
  constructor
  · rw [_title_score]
    rw [bonus_foldl (fun tk => tk.toList <:+: cand.toLower.toList)]
    simp
  · intro hp
    refine ⟨heap_pop_mem_min heap e h' hp, ?_⟩
    rw [bestfirst_loop.eq_def, hp]
    dsimp only
    by_cases h1 : vc + 1 > maxVisited
    · rw [if_pos h1]
      rfl
    · rw [if_neg h1]
      by_cases h2 : maxDepth ≤ e.depth
      · rw [if_pos h2]
        rfl
      · rw [if_neg h2]
        by_cases h3 : target ∈ links_or_empty env e.node
        · rw [if_pos h3]
          rfl
        · rw [if_neg h3]
          split
          · rfl
          · rfl

/-- Witness for C5: a two-entry heap on the chain wiki; the entry with the
lesser negated score (greater score) is popped and dequeued first. -/
theorem claim_C5_witness :
    heap_pop [⟨0, 0, 0, "S", ["S"]⟩, ⟨-1, 0, 1, "A", ["A"]⟩]
      = some (⟨-1, 0, 1, "A", ["A"]⟩, [⟨0, 0, 0, "S", ["S"]⟩]) ∧
    ((⟨-1, 0, 1, "A", ["A"]⟩ : BEntry) ∈
        [(⟨0, 0, 0, "S", ["S"]⟩ : BEntry), ⟨-1, 0, 1, "A", ["A"]⟩] ∧
      ∀ x ∈ [(⟨0, 0, 0, "S", ["S"]⟩ : BEntry), ⟨-1, 0, 1, "A", ["A"]⟩],
        (⟨-1, 0, 1, "A", ["A"]⟩ : BEntry).negScore ≤ x.negScore) ∧
    ((bestfirst_loop envChain "T" 6 100 50 [⟨0, 0, 0, "S", ["S"]⟩, ⟨-1, 0, 1, "A", ["A"]⟩]
        ["S", "A"] 0 1 st00).2.2).head? = some (Ev.deq "A") := by
  refine ⟨by decide, ?_⟩
  exact (claim_C5 envChain "x" "y" "T" 6 100 50
    [⟨0, 0, 0, "S", ["S"]⟩, ⟨-1, 0, 1, "A", ["A"]⟩] ["S", "A"] 0 1 st00
    ⟨-1, 0, 1, "A", ["A"]⟩ [⟨0, 0, 0, "S", ["S"]⟩]).2 (by decide)

/-- A successful `links_of` value is duplicate-free (it models a Python set). -/
theorem links_of_ok_nodup (env : WikiEnv) (t : Title) (l : List Title)
    (h : links_of env t = .ok l) : l.Nodup := by
  rw [links_of] at h
  cases hres : env.resolve t with
  | none =>
    rw [hres] at h
    dsimp only at h
    cases h
    exact List.nodup_nil
  | some r =>
    rw [hres] at h
    dsimp only at h
    cases hf : env.fetchLinks r with
    | ok l0 =>
      rw [hf] at h
      dsimp only at h
      cases h
      exact l0.nodup_dedup
    | error e =>
      rw [hf] at h
      dsimp only at h
      cases h

/-- A successful `linkshere_of` value is duplicate-free. -/
theorem linkshere_of_ok_nodup (env : WikiEnv) (t : Title) (l : List Title)
    (h : linkshere_of env t = .ok l) : l.Nodup := by
  rw [linkshere_of] at h
  cases hres : env.resolve t with
  | none =>
    rw [hres] at h
    dsimp only at h
    cases h
    exact List.nodup_nil
  | some r =>
    rw [hres] at h
    dsimp only at h
    cases hf : env.fetchLinkshere r with
    | ok l0 =>
      rw [hf] at h
      dsimp only at h
      cases h
      exact l0.nodup_dedup
    | error e =>
      rw [hf] at h
      dsimp only at h
      cases h

/-- The neighbor enumeration a search sees is duplicate-free. -/
theorem nodup_links_or_empty (env : WikiEnv) (t : Title) :
    (links_or_empty env t).Nodup := by
  rw [links_or_empty]
  cases h : links_of env t with
  | ok l =>
    dsimp only
    exact links_of_ok_nodup env t l h
  | error e =>
    dsimp only
    exact List.nodup_nil

/-- The backward neighbor enumeration is likewise duplicate-free. -/
theorem nodup_linkshere_or_empty (env : WikiEnv) (t : Title) :
    (linkshere_or_empty env t).Nodup := by
  rw [linkshere_or_empty]
  cases h : linkshere_of env t with
  | ok l =>
    dsimp only
    exact linkshere_of_ok_nodup env t l h
  | error e =>
    dsimp only
    exact List.nodup_nil

/-- When the pushed pairs carry distinct nodes none of which is visited,
`best_enqueue` pushes all of them, in order. -/
theorem best_enqueue_events (current : Title) (path : List Title) (depth topN : Nat) :
    ∀ (tops : List (ℚ × Title)) (heap : List BEntry) (visited : List Title)
      (uid : Nat) (st : Crawl),
      (tops.map Prod.snd).Nodup → (∀ n ∈ tops.map Prod.snd, n ∉ visited) →
      (best_enqueue current path depth topN tops heap visited uid st).2.2.2.2
        = tops.map (fun x => Ev.enq x.2) := by
  intro tops
  induction tops with
  | nil => intro heap visited uid st _ _; rfl
  | cons p rest ih =>
    intro heap visited uid st hnd hvis
    obtain ⟨sc, n⟩ := p
    rw [best_enqueue]
    rw [if_neg (hvis n (by simp))]
    simp only [List.map_cons, List.cons.injEq, true_and]
    refine ih _ _ _ _ ?_ ?_
    · exact (List.nodup_cons.mp (by simpa using hnd)).2
    · intro x hx
      have hxr : x ∈ rest.map Prod.snd := hx
      have hne : x ≠ n := by
        intro hcon
        subst hcon
        exact (List.nodup_cons.mp (by simpa using hnd)).1 hxr
      have hxv : x ∉ visited := hvis x (by simp [hxr])
      simp [List.mem_cons, hne, hxv]

/-- C4.  One expansion of `find_path_best_first` pushes at most `max_branch`
entries: the pushed list `best_top` is the `max_branch`-prefix of the stable
descending sort of the scored unvisited neighbors, so it is capped in
length, every pushed pair is an unvisited neighbor carrying its heuristic
score, every scored pair left behind scores no higher than any pushed one,
and in an expanding iteration the loop enqueues exactly the nodes of that
list, in order. -/
theorem claim_C4 (env : WikiEnv) (target current : Title) (visited : List Title)
    (maxDepth maxVisited maxBranch : Nat) :
    (best_top (best_scored env target visited (links_or_empty env current)) maxBranch).length
      ≤ maxBranch ∧
    (∀ p ∈ best_top (best_scored env target visited (links_or_empty env current)) maxBranch,
      p.2 ∈ links_or_empty env current ∧ p.2 ∉ visited ∧
        p.1 = _title_score env p.2 target) ∧
    (∀ q ∈ best_scored env target visited (links_or_empty env current),
      q ∉ best_top (best_scored env target visited (links_or_empty env current)) maxBranch →
      ∀ p ∈ best_top (best_scored env target visited (links_or_empty env current)) maxBranch,
        q.1 ≤ p.1) ∧
    (∀ (heap : List BEntry) (e : BEntry) (h' : List BEntry) (vc uid : Nat) (st : Crawl),
      heap_pop heap = some (e, h') → e.node = current →
      vc + 1 ≤ maxVisited → e.depth < maxDepth →
      target ∉ links_or_empty env current →
      best_scored env target visited (links_or_empty env current) ≠ [] →
      ∃ tr, (bestfirst_loop env target maxDepth maxVisited maxBranch heap visited vc uid st).2.2
        = Ev.deq current :: Ev.fl current ::
          ((best_top (best_scored env target visited (links_or_empty env current)) maxBranch).map
            (fun x => Ev.enq x.2) ++ tr)) := by
  have hperm : ((best_scored env target visited (links_or_empty env current)).mergeSort
      (fun a b => decide (b.1 ≤ a.1))).Perm
      (best_scored env target visited (links_or_empty env current)) :=
    List.mergeSort_perm _ _
  have hmem_scored : ∀ p ∈ best_scored env target visited (links_or_empty env current),
      p.2 ∈ links_or_empty env current ∧ p.2 ∉ visited ∧
        p.1 = _title_score env p.2 target := by
    intro p hp
    obtain ⟨n, hn, rfl⟩ := List.mem_map.mp hp
    obtain ⟨hn1, hn2⟩ := List.mem_filter.mp hn
    exact ⟨hn1, by simpa using hn2, rfl⟩
  have htop_mem : ∀ p ∈ best_top (best_scored env target visited (links_or_empty env current))
      maxBranch, p ∈ best_scored env target visited (links_or_empty env current) := by
    intro p hp
    rw [best_top] at hp
    exact hperm.mem_iff.mp (List.Sublist.mem hp (List.take_sublist _ _))
  have htopnodes : ((best_top (best_scored env target visited (links_or_empty env current))
      maxBranch).map Prod.snd).Nodup := by
    have h1 : ((best_scored env target visited (links_or_empty env current)).map
        Prod.snd).Nodup := by
      rw [best_scored, List.map_map]
      have h2 : (Prod.snd ∘ fun n => (_title_score env n target, n)) = id := rfl
      rw [h2, List.map_id]
      exact (nodup_links_or_empty env current).filter _
    have h3 := ((hperm.map Prod.snd).nodup_iff).mpr h1
    rw [best_top]
    exact ((List.take_sublist _ _).map Prod.snd).nodup h3
  refine ⟨?_, ?_, ?_, ?_⟩
  · rw [best_top]
    exact List.length_take_le maxBranch _
  · intro p hp
    exact hmem_scored p (htop_mem p hp)
  · intro q hq hqtop p hp
    have hsortedp : List.Pairwise (fun a b : ℚ × Title => b.1 ≤ a.1)
        ((best_scored env target visited (links_or_empty env current)).mergeSort
          (fun a b => decide (b.1 ≤ a.1))) := by
      have h4 := @List.sorted_mergeSort (ℚ × Title)
        (fun a b => decide (b.1 ≤ a.1))
        (fun a b c hab hbc => by
          simp only [decide_eq_true_eq] at hab hbc ⊢
          exact le_trans hbc hab)
        (fun a b => by
          simp only [Bool.or_eq_true, decide_eq_true_eq]
          exact le_total b.1 a.1)
        (best_scored env target visited (links_or_empty env current))
      exact h4.imp (by simp)
    rw [best_top] at hqtop hp
    have hq2 : q ∈ ((best_scored env target visited (links_or_empty env current)).mergeSort
        (fun a b => decide (b.1 ≤ a.1))) := hperm.mem_iff.mpr hq
    rw [← List.take_append_drop maxBranch
      ((best_scored env target visited (links_or_empty env current)).mergeSort
        (fun a b => decide (b.1 ≤ a.1)))] at hq2 hsortedp
    have hq3 := (List.mem_append.mp hq2).resolve_left hqtop
    exact (List.pairwise_append.mp hsortedp).2.2 p hp q hq3
  · intro heap e h' vc uid st hpop hnode hcap hdepth htarget hscornil
    rw [bestfirst_loop.eq_def, hpop]
    dsimp only
    rw [if_neg (by omega : ¬ vc + 1 > maxVisited)]
    rw [if_neg (by omega : ¬ maxDepth ≤ e.depth)]
    rw [hnode]
    rw [if_neg htarget]
    rw [if_neg hscornil]
    dsimp only
    rw [best_enqueue_events current e.path e.depth _ _ _ _ _ _ htopnodes
      (fun n hn => by
        obtain ⟨p, hp, rfl⟩ := List.mem_map.mp hn
        exact (hmem_scored p (htop_mem p hp)).2.1)]
    exact ⟨_, rfl⟩

/-- Witness for C4 at a concrete expansion on the chain wiki: expanding `S`
toward `T` pushes exactly the single scored neighbor `A`. -/
theorem claim_C4_witness :
    heap_pop [(⟨0, 0, 0, "S", ["S"]⟩ : BEntry)] = some (⟨0, 0, 0, "S", ["S"]⟩, []) ∧
    ("T" : Title) ∉ links_or_empty envChain "S" ∧
    best_scored envChain "T" ["S"] (links_or_empty envChain "S") ≠ [] ∧
    ∃ tr, (bestfirst_loop envChain "T" 6 100 50 [⟨0, 0, 0, "S", ["S"]⟩] ["S"] 0 1 st00).2.2
      = Ev.deq "S" :: Ev.fl "S" ::
        ((best_top (best_scored envChain "T" ["S"] (links_or_empty envChain "S")) 50).map
          (fun x => Ev.enq x.2) ++ tr) := by
  refine ⟨rfl, by decide, by decide, ?_⟩
  exact (claim_C4 envChain "T" "S" ["S"] 6 100 50).2.2.2
    [⟨0, 0, 0, "S", ["S"]⟩] ⟨0, 0, 0, "S", ["S"]⟩ [] 0 1 st00
    rfl rfl (by decide) (by decide) (by decide) (by decide)

/-- Dequeue extraction distributes over trace concatenation. -/
theorem deqs_append (l1 l2 : List Ev) : deqs (l1 ++ l2) = deqs l1 ++ deqs l2 := by
  induction l1 with
  | nil => rfl
  | cons e rest ih => cases e <;> simp [deqs, ih]

/-- Enqueue extraction distributes over trace concatenation. -/
theorem enqs_append (l1 l2 : List Ev) : enqs (l1 ++ l2) = enqs l1 ++ enqs l2 := by
  induction l1 with
  | nil => rfl
  | cons e rest ih => cases e <;> simp [enqs, ih]

/-- A block of enqueue events holds no dequeues. -/
theorem deqs_map_enq (xs : List Title) : deqs (xs.map Ev.enq) = [] := by
  induction xs with
  | nil => rfl
  | cons x rest ih => simp [deqs, ih]

/-- A block of enqueue events enumerates exactly its titles. -/
theorem enqs_map_enq (xs : List Title) : enqs (xs.map Ev.enq) = xs := by
  induction xs with
  | nil => rfl
  | cons x rest ih => simp [enqs, ih]

/-- Characterization of the BFS enqueue loop on a duplicate-free neighbor
set: it appends one entry per unvisited neighbor to the queue in order,
pushes those neighbors onto the visited set, and emits one enqueue event
per new entry. -/
theorem bfs_enqueue_spec (current : Title) (path : List Title) (depth : Nat) :
    ∀ (ns : List Title) (q : List BfsEntry) (visited : List Title) (st : Crawl), ns.Nodup →
      (bfs_enqueue current path depth ns q visited st).1
        = q ++ (ns.filter (fun n => decide (n ∉ visited))).map
            (fun n => (n, path ++ [n], depth + 1)) ∧
      (bfs_enqueue current path depth ns q visited st).2.1
        = (ns.filter (fun n => decide (n ∉ visited))).reverse ++ visited ∧
      (bfs_enqueue current path depth ns q visited st).2.2.2
        = (ns.filter (fun n => decide (n ∉ visited))).map Ev.enq := by
  intro ns
  induction ns with
  | nil =>
    intro q visited st _
    exact ⟨by simp [bfs_enqueue], by simp [bfs_enqueue], by simp [bfs_enqueue]⟩
  | cons n ns' ih =>
    intro q visited st hnd
    have hn_notin : n ∉ ns' := (List.nodup_cons.mp hnd).1
    have hnd' : ns'.Nodup := (List.nodup_cons.mp hnd).2
    have hfilter : ns'.filter (fun x => decide (x ∉ n :: visited))
        = ns'.filter (fun x => decide (x ∉ visited)) := by
      refine List.filter_congr ?_
      intro x hx
      have hxn : x ≠ n := fun hcon => hn_notin (hcon ▸ hx)
      simp [List.mem_cons, hxn]
    rw [bfs_enqueue]
    by_cases hv : n ∈ visited
    · rw [if_pos hv, List.filter_cons_of_neg (by simpa using hv)]
      exact ih q visited st hnd'
    · rw [if_neg hv, List.filter_cons_of_pos (by simpa using hv)]
      dsimp only
      obtain ⟨h1, h2, h3⟩ := ih (q ++ [(n, path ++ [n], depth + 1)]) (n :: visited)
        (setDec st (current, n)
          ⟨"bfs", some (depth + 1), none, "enqueued from " ++ current⟩) hnd'
      refine ⟨?_, ?_, ?_⟩
      · rw [h1, hfilter]
        simp
      · rw [h2, hfilter]
        simp
      · rw [h3, hfilter]
        simp

/-- Trace discipline of the BFS loop: starting from a queue of distinct
nodes all marked visited, the dequeued titles are distinct, every dequeued
title is either a queued node or a currently unvisited one, the enqueued
titles are distinct, and every enqueued title is currently unvisited.  The
`fuel` argument is only an induction measure bounding the remaining
iterations. -/
theorem bfs_loop_trace_spec (env : WikiEnv) (target : Title) (maxDepth maxVisited : Nat) :
    ∀ (fuel : Nat) (q : List BfsEntry) (visited : List Title) (vc : Nat) (st : Crawl),
      maxVisited + 1 - vc ≤ fuel →
      (q.map (fun e : BfsEntry => e.1)).Nodup →
      (∀ n ∈ q.map (fun e : BfsEntry => e.1), n ∈ visited) →
      (deqs (bfs_loop env target maxDepth maxVisited q visited vc st).2.2).Nodup ∧
      (∀ x ∈ deqs (bfs_loop env target maxDepth maxVisited q visited vc st).2.2,
        x ∈ q.map (fun e : BfsEntry => e.1) ∨ x ∉ visited) ∧
      (enqs (bfs_loop env target maxDepth maxVisited q visited vc st).2.2).Nodup ∧
      (∀ x ∈ enqs (bfs_loop env target maxDepth maxVisited q visited vc st).2.2,
        x ∉ visited) := by
  intro fuel
  induction fuel with
  | zero =>
    intro q visited vc st hfuel hnd hsub
    cases q with
    | nil =>
      have htr : (bfs_loop env target maxDepth maxVisited [] visited vc st).2.2 = [] := by
        rw [bfs_loop.eq_def]
      rw [htr]
      exact ⟨List.nodup_nil, by simp [deqs], List.nodup_nil, by simp [enqs]⟩
    | cons e q' =>
      obtain ⟨current, path, depth⟩ := e
      have hcap : vc + 1 > maxVisited := by omega
      have htr : (bfs_loop env target maxDepth maxVisited ((current, path, depth) :: q')
          visited vc st).2.2 = [Ev.deq current] := by
        rw [bfs_loop.eq_def]
        dsimp only
        rw [if_pos hcap]
      rw [htr]
      refine ⟨by simp [deqs], ?_, by simp [enqs], by simp [enqs]⟩
      intro x hx
      simp only [deqs] at hx
      rcases List.mem_singleton.mp (by simpa [deqs] using hx) with rfl
      exact Or.inl (by simp)
  | succ fuel ih =>
    intro q visited vc st hfuel hnd hsub
    cases q with
    | nil =>
      have htr : (bfs_loop env target maxDepth maxVisited [] visited vc st).2.2 = [] := by
        rw [bfs_loop.eq_def]
      rw [htr]
      exact ⟨List.nodup_nil, by simp [deqs], List.nodup_nil, by simp [enqs]⟩
    | cons e q' =>
      obtain ⟨current, path, depth⟩ := e
      by_cases hcap : vc + 1 > maxVisited
      · have htr : (bfs_loop env target maxDepth maxVisited ((current, path, depth) :: q')
            visited vc st).2.2 = [Ev.deq current] := by
          rw [bfs_loop.eq_def]
          dsimp only
          rw [if_pos hcap]
        rw [htr]
        refine ⟨by simp [deqs], ?_, by simp [enqs], by simp [enqs]⟩
        intro x hx
        rcases List.mem_singleton.mp (by simpa [deqs] using hx) with rfl
        exact Or.inl (by simp)
      · have hfuel' : maxVisited + 1 - (vc + 1) ≤ fuel := by omega
        simp only [List.map_cons] at hnd hsub
        have hndq : (q'.map (fun e : BfsEntry => e.1)).Nodup := (List.nodup_cons.mp hnd).2
        have hheadq : current ∉ q'.map (fun e : BfsEntry => e.1) := (List.nodup_cons.mp hnd).1
        have hheadv : current ∈ visited := hsub current (by simp)
        by_cases hdep : maxDepth ≤ depth
        · have htr : (bfs_loop env target maxDepth maxVisited ((current, path, depth) :: q')
              visited vc st).2.2
              = Ev.deq current :: (bfs_loop env target maxDepth maxVisited q' visited
                  (vc + 1) st).2.2 := by
            rw [bfs_loop.eq_def]
            dsimp only
            rw [if_neg hcap, if_pos hdep]
          obtain ⟨A2, B2, C2, D2⟩ := ih q' visited (vc + 1) st hfuel' hndq
            (fun n hn => hsub n (by simp [hn]))
          rw [htr]
          refine ⟨?_, ?_, ?_, ?_⟩
          · simp only [deqs]
            refine List.nodup_cons.mpr ⟨?_, A2⟩
            intro hx
            rcases B2 current hx with h | h
            · exact hheadq h
            · exact h hheadv
          · intro x hx
            simp only [deqs] at hx
            rcases List.mem_cons.mp hx with rfl | hx
            · exact Or.inl (by simp)
            · rcases B2 x hx with h | h
              · exact Or.inl (by simp [h])
              · exact Or.inr h
          · simpa only [enqs] using C2
          · intro x hx
            simp only [enqs] at hx
            exact D2 x hx
        · by_cases htgt : target ∈ links_or_empty env current
          · have htr : (bfs_loop env target maxDepth maxVisited ((current, path, depth) :: q')
                visited vc st).2.2 = [Ev.deq current, Ev.fl current] := by
              rw [bfs_loop.eq_def]
              dsimp only
              rw [if_neg hcap, if_neg hdep, if_pos htgt]
            rw [htr]
            refine ⟨by simp [deqs], ?_, by simp [enqs], by simp [enqs]⟩
            intro x hx
            rcases List.mem_singleton.mp (by simpa [deqs] using hx) with rfl
            exact Or.inl (by simp)
          · have hnbr : (links_or_empty env current).Nodup := nodup_links_or_empty env current
            obtain ⟨her1, her2, her3⟩ := bfs_enqueue_spec current path depth
              (links_or_empty env current) q' visited
              (add_nbr_edges st current (links_or_empty env current)) hnbr
            have hnewvis : ∀ x ∈ (links_or_empty env current).filter
                (fun n => decide (n ∉ visited)), x ∉ visited := by
              intro x hx
              simpa using (List.mem_filter.mp hx).2
            have hnewnodup : ((links_or_empty env current).filter
                (fun n => decide (n ∉ visited))).Nodup := hnbr.filter _
            have htr : (bfs_loop env target maxDepth maxVisited ((current, path, depth) :: q')
                visited vc st).2.2
                = Ev.deq current :: Ev.fl current ::
                  ((bfs_enqueue current path depth (links_or_empty env current) q' visited
                    (add_nbr_edges st current (links_or_empty env current))).2.2.2 ++
                   (bfs_loop env target maxDepth maxVisited
                     (bfs_enqueue current path depth (links_or_empty env current) q' visited
                       (add_nbr_edges st current (links_or_empty env current))).1
                     (bfs_enqueue current path depth (links_or_empty env current) q' visited
                       (add_nbr_edges st current (links_or_empty env current))).2.1
                     (vc + 1)
                     (bfs_enqueue current path depth (links_or_empty env current) q' visited
                       (add_nbr_edges st current (links_or_empty env current))).2.2.1).2.2) := by
              rw [bfs_loop.eq_def]
              dsimp only
              rw [if_neg hcap, if_neg hdep, if_neg htgt]
            have hinv1 : ((bfs_enqueue current path depth (links_or_empty env current) q'
                visited (add_nbr_edges st current (links_or_empty env current))).1.map
                  (fun e : BfsEntry => e.1)).Nodup := by
              rw [her1, List.map_append, List.map_map]
              have hid : ((fun e : BfsEntry => e.1) ∘
                  fun n => (n, path ++ [n], depth + 1)) = id := rfl
              rw [hid, List.map_id]
              refine List.nodup_append.mpr ⟨hndq, hnewnodup, ?_⟩
              intro a ha hb
              exact hnewvis a hb (hsub a (by simp [ha]))
            have hinv2 : ∀ n ∈ (bfs_enqueue current path depth (links_or_empty env current)
                q' visited (add_nbr_edges st current (links_or_empty env current))).1.map
                  (fun e : BfsEntry => e.1),
                n ∈ (bfs_enqueue current path depth (links_or_empty env current) q' visited
                  (add_nbr_edges st current (links_or_empty env current))).2.1 := by
              intro n hn
              rw [her1, List.map_append, List.map_map] at hn
              rw [her2]
              rcases List.mem_append.mp hn with h | h
              · exact List.mem_append.mpr (Or.inr (hsub n (by simp [h])))
              · refine List.mem_append.mpr (Or.inl ?_)
                rw [List.mem_reverse]
                simpa using h
            obtain ⟨A2, B2, C2, D2⟩ := ih _ _ (vc + 1) _ hfuel' hinv1 hinv2
            rw [htr]
            simp only [deqs, enqs, deqs_append, enqs_append, her3, deqs_map_enq,
              enqs_map_enq, List.nil_append]
            refine ⟨?_, ?_, ?_, ?_⟩
            · refine List.nodup_cons.mpr ⟨?_, A2⟩
              intro hx
              rcases B2 current hx with h | h
              · rw [her1, List.map_append, List.map_map] at h
                rcases List.mem_append.mp h with h2 | h2
                · exact hheadq h2
                · exact hnewvis current (by simpa using h2) hheadv
              · rw [her2] at h
                exact h (List.mem_append.mpr (Or.inr hheadv))
            · intro x hx
              rcases List.mem_cons.mp hx with rfl | hx
              · exact Or.inl (by simp)
              · rcases B2 x hx with h | h
                · rw [her1, List.map_append, List.map_map] at h
                  rcases List.mem_append.mp h with h2 | h2
                  · exact Or.inl (by simp [h2])
                  · exact Or.inr (hnewvis x (by simpa using h2))
                · rw [her2] at h
                  exact Or.inr (fun hv => h (List.mem_append.mpr (Or.inr hv)))
            · refine List.nodup_append.mpr ⟨hnewnodup, C2, ?_⟩
              intro a ha hb
              refine D2 a hb ?_
              rw [her2]
              exact List.mem_append.mpr (Or.inl (List.mem_reverse.mpr ha))
            · intro x hx
              rcases List.mem_append.mp hx with h | h
              · exact hnewvis x h
              · intro hv
                refine D2 x h ?_
                rw [her2]
                exact List.mem_append.mpr (Or.inr hv)

/-- C6.  Throughout any `find_path_bfs` run, a node is visited at most once:
the dequeued (hence expanded) titles in the event trace are pairwise
distinct, and the enqueued titles, which coincide with the additions to the
visited set, are pairwise distinct as well. -/
theorem claim_C6 (env : WikiEnv) (st : Crawl) (s t : Title) (md mv : Nat) :
    (deqs (find_path_bfs env st s t md mv).2.2).Nodup ∧
    (enqs (find_path_bfs env st s t md mv).2.2).Nodup := by
  rw [find_path_bfs]
  cases hrs : env.resolve s with
  | none =>
    dsimp only
    exact ⟨List.nodup_nil, List.nodup_nil⟩
  | some start =>
    dsimp only
    cases hrt : env.resolve t with
    | none =>
      dsimp only
      exact ⟨List.nodup_nil, List.nodup_nil⟩
    | some target =>
      dsimp only
      by_cases hst : start = target
      · rw [if_pos hst]
        exact ⟨List.nodup_nil, List.nodup_nil⟩
      · rw [if_neg hst]
        have h := bfs_loop_trace_spec env target md mv (mv + 1) [(start, [start], 0)] [start] 0
          { graph := { nodes := [start], edges := [] }, dec := [] }
          (by omega) (by simp) (by simp)
        exact ⟨h.1, h.2.2.1⟩

/-- The BFS enqueue loop emits no dequeue events. -/
theorem bfs_enqueue_deqs_nil (current : Title) (path : List Title) (depth : Nat) :
    ∀ (ns : List Title) (q : List BfsEntry) (visited : List Title) (st : Crawl),
      deqs (bfs_enqueue current path depth ns q visited st).2.2.2 = [] := by
  intro ns
  induction ns with
  | nil => intro q visited st; rfl
  | cons n ns' ih =>
    intro q visited st
    rw [bfs_enqueue]
    by_cases hv : n ∈ visited
    · rw [if_pos hv]
      exact ih q visited st
    · rw [if_neg hv]
      dsimp only
      simp only [deqs]
      exact ih _ _ _

/-- The best-first push loop emits no dequeue events. -/
theorem best_enqueue_deqs_nil (current : Title) (path : List Title) (depth topN : Nat) :
    ∀ (tops : List (ℚ × Title)) (heap : List BEntry) (visited : List Title)
      (uid : Nat) (st : Crawl),
      deqs (best_enqueue current path depth topN tops heap visited uid st).2.2.2.2 = [] := by
  intro tops
  induction tops with
  | nil => intro heap visited uid st; rfl
  | cons p rest ih =>
    intro heap visited uid st
    obtain ⟨sc, n⟩ := p
    rw [best_enqueue]
    by_cases hv : n ∈ visited
    · rw [if_pos hv]
      exact ih _ _ _ _
    · rw [if_neg hv]
      dsimp only
      simp only [deqs]
      exact ih _ _ _ _

/-- The forward bidirectional enqueue loop emits no dequeue events. -/
theorem bidi_enqueue_fwd_deqs_nil (current : Title) (depth : Nat) :
    ∀ (ns : List Title) (qf : List (Title × Nat)) (vf : List Title)
      (pf : List (Title × Title)) (st : Crawl),
      deqs (bidi_enqueue_fwd current depth ns qf vf pf st).2.2.2.2 = [] := by
  intro ns
  induction ns with
  | nil => intro qf vf pf st; rfl
  | cons n ns' ih =>
    intro qf vf pf st
    rw [bidi_enqueue_fwd]
    by_cases hv : n ∈ vf
    · rw [if_pos hv]
      exact ih _ _ _ _
    · rw [if_neg hv]
      dsimp only
      simp only [deqs]
      exact ih _ _ _ _

/-- The backward bidirectional enqueue loop emits no dequeue events. -/
theorem bidi_enqueue_bwd_deqs_nil (current : Title) (depth : Nat) :
    ∀ (ns : List Title) (qb : List (Title × Nat)) (vb : List Title)
      (pb : List (Title × Title)) (st : Crawl),
      deqs (bidi_enqueue_bwd current depth ns qb vb pb st).2.2.2.2 = [] := by
  intro ns
  induction ns with
  | nil => intro qb vb pb st; rfl
  | cons n ns' ih =>
    intro qb vb pb st
    rw [bidi_enqueue_bwd]
    by_cases hv : n ∈ vb
    · rw [if_pos hv]
      exact ih _ _ _ _
    · rw [if_neg hv]
      dsimp only
      simp only [deqs]
      exact ih _ _ _ _

/-- Visited-cap discipline of the BFS loop: with `vc` dequeues already
counted, the loop performs at most `max_visited + 1 - vc` further dequeues,
the only error it can raise is the visited-cap `RuntimeError`, raised
exactly when that bound is reached. -/
theorem bfs_loop_cap (env : WikiEnv) (target : Title) (maxDepth maxVisited : Nat) :
    ∀ (fuel : Nat) (q : List BfsEntry) (visited : List Title) (vc : Nat) (st : Crawl),
      maxVisited + 1 - vc ≤ fuel → vc ≤ maxVisited →
      (deqs (bfs_loop env target maxDepth maxVisited q visited vc st).2.2).length
        ≤ maxVisited + 1 - vc ∧
      (∀ e, (bfs_loop env target maxDepth maxVisited q visited vc st).1 = .error e →
        e = .runtimeError "Visited cap exceeded; aborting" ∧
        (deqs (bfs_loop env target maxDepth maxVisited q visited vc st).2.2).length
          = maxVisited + 1 - vc) ∧
      ((deqs (bfs_loop env target maxDepth maxVisited q visited vc st).2.2).length
          = maxVisited + 1 - vc →
        (bfs_loop env target maxDepth maxVisited q visited vc st).1
          = .error (.runtimeError "Visited cap exceeded; aborting")) := by
  intro fuel
  induction fuel with
  | zero =>
    intro q visited vc st hfuel hvc
    omega
  | succ fuel ih =>
    intro q visited vc st hfuel hvc
    cases q with
    | nil =>
      have hval : bfs_loop env target maxDepth maxVisited [] visited vc st
          = (.ok none, st, []) := by
        rw [bfs_loop.eq_def]
      rw [hval]
      refine ⟨by simp [deqs] <;> omega, ?_, ?_⟩
      · intro e he
        cases he
      · intro hlen
        simp [deqs] at hlen
        omega
    | cons e0 q' =>
      obtain ⟨current, path, depth⟩ := e0
      by_cases hcap : vc + 1 > maxVisited
      · have hval : bfs_loop env target maxDepth maxVisited ((current, path, depth) :: q')
            visited vc st
            = (.error (.runtimeError "Visited cap exceeded; aborting"), st, [Ev.deq current]) := by
          rw [bfs_loop.eq_def]
          dsimp only
          rw [if_pos hcap]
        rw [hval]
        refine ⟨by simp [deqs] <;> omega, ?_, ?_⟩
        · intro e he
          cases he
          exact ⟨rfl, by simp [deqs] <;> omega⟩
        · intro _
          rfl
      · have hvc' : vc + 1 ≤ maxVisited := by omega
        have hfuel' : maxVisited + 1 - (vc + 1) ≤ fuel := by omega
        by_cases hdep : maxDepth ≤ depth
        · have hval : bfs_loop env target maxDepth maxVisited ((current, path, depth) :: q')
              visited vc st
              = ((bfs_loop env target maxDepth maxVisited q' visited (vc + 1) st).1,
                 (bfs_loop env target maxDepth maxVisited q' visited (vc + 1) st).2.1,
                 Ev.deq current ::
                   (bfs_loop env target maxDepth maxVisited q' visited (vc + 1) st).2.2) := by
            rw [bfs_loop.eq_def]
            dsimp only
            rw [if_neg hcap, if_pos hdep]
          obtain ⟨A2, B2, C2⟩ := ih q' visited (vc + 1) st hfuel' hvc'
          rw [hval]
          refine ⟨?_, ?_, ?_⟩
          · simp only [deqs, List.length_cons]
            omega
          · intro e he
            obtain ⟨he1, he2⟩ := B2 e he
            refine ⟨he1, ?_⟩
            simp only [deqs, List.length_cons]
            omega
          · intro hlen
            simp only [deqs, List.length_cons] at hlen
            exact C2 (by omega)
        · by_cases htgt : target ∈ links_or_empty env current
          · have hval : bfs_loop env target maxDepth maxVisited
                ((current, path, depth) :: q') visited vc st
                = (.ok (some (path ++ [target])),
                   setDec (add_nbr_edges st current (links_or_empty env current))
                     (current, target)
                     ⟨"bfs", some (depth + 1), none, "direct neighbor - target found"⟩,
                   [Ev.deq current, Ev.fl current]) := by
              rw [bfs_loop.eq_def]
              dsimp only
              rw [if_neg hcap, if_neg hdep, if_pos htgt]
            rw [hval]
            refine ⟨by simp [deqs] <;> omega, ?_, ?_⟩
            · intro e he
              cases he
            · intro hlen
              simp [deqs] at hlen
              omega
          · have hval : bfs_loop env target maxDepth maxVisited
                ((current, path, depth) :: q') visited vc st
                = ((bfs_loop env target maxDepth maxVisited
                     (bfs_enqueue current path depth (links_or_empty env current) q' visited
                       (add_nbr_edges st current (links_or_empty env current))).1
                     (bfs_enqueue current path depth (links_or_empty env current) q' visited
                       (add_nbr_edges st current (links_or_empty env current))).2.1
                     (vc + 1)
                     (bfs_enqueue current path depth (links_or_empty env current) q' visited
                       (add_nbr_edges st current (links_or_empty env current))).2.2.1).1,
                   (bfs_loop env target maxDepth maxVisited
                     (bfs_enqueue current path depth (links_or_empty env current) q' visited
                       (add_nbr_edges st current (links_or_empty env current))).1
                     (bfs_enqueue current path depth (links_or_empty env current) q' visited
                       (add_nbr_edges st current (links_or_empty env current))).2.1
                     (vc + 1)
                     (bfs_enqueue current path depth (links_or_empty env current) q' visited
                       (add_nbr_edges st current (links_or_empty env current))).2.2.1).2.1,
                   Ev.deq current :: Ev.fl current ::
                     ((bfs_enqueue current path depth (links_or_empty env current) q' visited
                        (add_nbr_edges st current (links_or_empty env current))).2.2.2 ++
                      (bfs_loop env target maxDepth maxVisited
                        (bfs_enqueue current path depth (links_or_empty env current) q' visited
                          (add_nbr_edges st current (links_or_empty env current))).1
                        (bfs_enqueue current path depth (links_or_empty env current) q' visited
                          (add_nbr_edges st current (links_or_empty env current))).2.1
                        (vc + 1)
                        (bfs_enqueue current path depth (links_or_empty env current) q' visited
                          (add_nbr_edges st current (links_or_empty env current))).2.2.1).2.2)) := by
              rw [bfs_loop.eq_def]
              dsimp only
              rw [if_neg hcap, if_neg hdep, if_neg htgt]
            obtain ⟨A2, B2, C2⟩ := ih
              (bfs_enqueue current path depth (links_or_empty env current) q' visited
                (add_nbr_edges st current (links_or_empty env current))).1
              (bfs_enqueue current path depth (links_or_empty env current) q' visited
                (add_nbr_edges st current (links_or_empty env current))).2.1
              (vc + 1)
              (bfs_enqueue current path depth (links_or_empty env current) q' visited
                (add_nbr_edges st current (links_or_empty env current))).2.2.1
              hfuel' hvc'
            rw [hval]
            simp only [deqs, deqs_append, bfs_enqueue_deqs_nil, List.nil_append,
              List.length_cons]
            refine ⟨by omega, ?_, ?_⟩
            · intro e he
              obtain ⟨he1, he2⟩ := B2 e he
              exact ⟨he1, by omega⟩
            · intro hlen
              exact C2 (by omega)

/-- Visited-cap discipline of the best-first loop, as in `bfs_loop_cap`. -/
theorem bestfirst_loop_cap (env : WikiEnv) (target : Title)
    (maxDepth maxVisited maxBranch : Nat) :
    ∀ (fuel : Nat) (heap : List BEntry) (visited : List Title) (vc uid : Nat) (st : Crawl),
      maxVisited + 1 - vc ≤ fuel → vc ≤ maxVisited →
      (deqs (bestfirst_loop env target maxDepth maxVisited maxBranch heap visited vc uid
        st).2.2).length ≤ maxVisited + 1 - vc ∧
      (∀ e, (bestfirst_loop env target maxDepth maxVisited maxBranch heap visited vc uid
          st).1 = .error e →
        e = .runtimeError "Visited cap exceeded; aborting" ∧
        (deqs (bestfirst_loop env target maxDepth maxVisited maxBranch heap visited vc uid
          st).2.2).length = maxVisited + 1 - vc) ∧
      ((deqs (bestfirst_loop env target maxDepth maxVisited maxBranch heap visited vc uid
          st).2.2).length = maxVisited + 1 - vc →
        (bestfirst_loop env target maxDepth maxVisited maxBranch heap visited vc uid st).1
          = .error (.runtimeError "Visited cap exceeded; aborting")) := by
  intro fuel
  induction fuel with
  | zero =>
    intro heap visited vc uid st hfuel hvc
    omega
  | succ fuel ih =>
    intro heap visited vc uid st hfuel hvc
    cases hpop : heap_pop heap with
    | none =>
      rw [bestfirst_loop.eq_def, hpop]
      dsimp only
      refine ⟨by simp [deqs], ?_, ?_⟩
      · intro e he
        cases he
      · intro hlen
        simp [deqs] at hlen
        omega
    | some epair =>
      obtain ⟨e0, heap'⟩ := epair
      rw [bestfirst_loop.eq_def, hpop]
      dsimp only
      by_cases hcap : vc + 1 > maxVisited
      · rw [if_pos hcap]
        refine ⟨by simp [deqs] <;> omega, ?_, ?_⟩
        · intro e he
          cases he
          exact ⟨rfl, by simp [deqs] <;> omega⟩
        · intro _
          rfl
      · have hvc' : vc + 1 ≤ maxVisited := by omega
        have hfuel' : maxVisited + 1 - (vc + 1) ≤ fuel := by omega
        rw [if_neg hcap]
        by_cases hdep : maxDepth ≤ e0.depth
        · rw [if_pos hdep]
          obtain ⟨A2, B2, C2⟩ := ih heap' visited (vc + 1) uid st hfuel' hvc'
          refine ⟨?_, ?_, ?_⟩
          · simp only [deqs, List.length_cons]
            omega
          · intro e he
            obtain ⟨he1, he2⟩ := B2 e he
            refine ⟨he1, ?_⟩
            simp only [deqs, List.length_cons]
            omega
          · intro hlen
            simp only [deqs, List.length_cons] at hlen
            exact C2 (by omega)
        · rw [if_neg hdep]
          by_cases htgt : target ∈ links_or_empty env e0.node
          · rw [if_pos htgt]
            refine ⟨by simp [deqs] <;> omega, ?_, ?_⟩
            · intro e he
              cases he
            · intro hlen
              simp [deqs] at hlen
              omega
          · rw [if_neg htgt]
            by_cases hsc : best_scored env target visited (links_or_empty env e0.node) = []
            · rw [if_pos hsc]
              obtain ⟨A2, B2, C2⟩ := ih heap' visited (vc + 1) uid
                (add_nbr_edges st e0.node (links_or_empty env e0.node)) hfuel' hvc'
              refine ⟨?_, ?_, ?_⟩
              · simp only [deqs, List.length_cons]
                omega
              · intro e he
                obtain ⟨he1, he2⟩ := B2 e he
                refine ⟨he1, ?_⟩
                simp only [deqs, List.length_cons]
                omega
              · intro hlen
                simp only [deqs, List.length_cons] at hlen
                exact C2 (by omega)
            · rw [if_neg hsc]
              dsimp only
              obtain ⟨A2, B2, C2⟩ := ih
                (best_enqueue e0.node e0.path e0.depth
                  (best_top (best_scored env target visited (links_or_empty env e0.node))
                    maxBranch).length
                  (best_top (best_scored env target visited (links_or_empty env e0.node))
                    maxBranch)
                  heap' visited uid
                  (add_nbr_edges st e0.node (links_or_empty env e0.node))).1
                (best_enqueue e0.node e0.path e0.depth
                  (best_top (best_scored env target visited (links_or_empty env e0.node))
                    maxBranch).length
                  (best_top (best_scored env target visited (links_or_empty env e0.node))
                    maxBranch)
                  heap' visited uid
                  (add_nbr_edges st e0.node (links_or_empty env e0.node))).2.1
                (vc + 1)
                (best_enqueue e0.node e0.path e0.depth
                  (best_top (best_scored env target visited (links_or_empty env e0.node))
                    maxBranch).length
                  (best_top (best_scored env target visited (links_or_empty env e0.node))
                    maxBranch)
                  heap' visited uid
                  (add_nbr_edges st e0.node (links_or_empty env e0.node))).2.2.1
                (best_enqueue e0.node e0.path e0.depth
                  (best_top (best_scored env target visited (links_or_empty env e0.node))
                    maxBranch).length
                  (best_top (best_scored env target visited (links_or_empty env e0.node))
                    maxBranch)
                  heap' visited uid
                  (add_nbr_edges st e0.node (links_or_empty env e0.node))).2.2.2.1
                hfuel' hvc'
              simp only [deqs, deqs_append, best_enqueue_deqs_nil, List.nil_append,
                List.length_cons]
              refine ⟨by omega, ?_, ?_⟩
              · intro e he
                obtain ⟨he1, he2⟩ := B2 e he
                exact ⟨he1, by omega⟩
              · intro hlen
                exact C2 (by omega)

/-- Visited-cap discipline of the bidirectional loop, as in `bfs_loop_cap`. -/
theorem bidi_loop_cap (env : WikiEnv) (start target : Title) (maxDepth maxVisited : Nat) :
    ∀ (fuel : Nat) (qf qb : List (Title × Nat)) (vf vb : List Title)
      (pf pb : List (Title × Title)) (vc : Nat) (st : Crawl),
      maxVisited + 1 - vc ≤ fuel → vc ≤ maxVisited →
      (deqs (bidi_loop env start target maxDepth maxVisited qf qb vf vb pf pb vc
        st).2.2).length ≤ maxVisited + 1 - vc ∧
      (∀ e, (bidi_loop env start target maxDepth maxVisited qf qb vf vb pf pb vc
          st).1 = .error e →
        e = .runtimeError "Visited cap exceeded; aborting" ∧
        (deqs (bidi_loop env start target maxDepth maxVisited qf qb vf vb pf pb vc
          st).2.2).length = maxVisited + 1 - vc) ∧
      ((deqs (bidi_loop env start target maxDepth maxVisited qf qb vf vb pf pb vc
          st).2.2).length = maxVisited + 1 - vc →
        (bidi_loop env start target maxDepth maxVisited qf qb vf vb pf pb vc st).1
          = .error (.runtimeError "Visited cap exceeded; aborting")) := by
  intro fuel
  induction fuel with
  | zero =>
    intro qf qb vf vb pf pb vc st hfuel hvc
    omega
  | succ fuel ih =>
    intro qf qb vf vb pf pb vc st hfuel hvc
    have hvc' : vc + 1 ≤ maxVisited + 1 := by omega
    cases qf with
    | nil =>
      rw [bidi_loop.eq_def]
      refine ⟨by simp [deqs], ?_, ?_⟩
      · intro e he
        cases qb <;> cases he
      · intro hlen
        cases qb <;> simp [deqs] at hlen <;> omega
    | cons ef qf' =>
      obtain ⟨c, d⟩ := ef
      cases qb with
      | nil =>
        rw [bidi_loop.eq_def]
        refine ⟨by simp [deqs], ?_, ?_⟩
        · intro e he
          cases he
        · intro hlen
          simp [deqs] at hlen
          omega
      | cons eb qb' =>
        obtain ⟨cb, db⟩ := eb
        rw [bidi_loop.eq_def]
        dsimp only
        have hfuel' : maxVisited + 1 - (vc + 1) ≤ fuel := by omega
        by_cases hlen : ((c, d) :: qf').length ≤ ((cb, db) :: qb').length
        · rw [if_pos hlen]
          by_cases hcap : vc + 1 > maxVisited
          · rw [if_pos hcap]
            refine ⟨by simp [deqs] <;> omega, ?_, ?_⟩
            · intro e he
              cases he
              exact ⟨rfl, by simp [deqs] <;> omega⟩
            · intro _
              rfl
          · have hvc2 : vc + 1 ≤ maxVisited := by omega
            rw [if_neg hcap]
            by_cases hdep : maxDepth ≤ d
            · rw [if_pos hdep]
              obtain ⟨A2, B2, C2⟩ := ih qf' ((cb, db) :: qb') vf vb pf pb (vc + 1) st
                hfuel' hvc2
              refine ⟨?_, ?_, ?_⟩
              · simp only [deqs, List.length_cons]
                omega
              · intro e he
                obtain ⟨he1, he2⟩ := B2 e he
                refine ⟨he1, ?_⟩
                simp only [deqs, List.length_cons]
                omega
              · intro hl2
                simp only [deqs, List.length_cons] at hl2
                exact C2 (by omega)
            · rw [if_neg hdep]
              cases hint : (links_or_empty env c).filter (fun n => decide (n ∈ vb)) with
              | cons meet rest =>
                refine ⟨by simp [deqs] <;> omega, ?_, ?_⟩
                · intro e he
                  cases he
                · intro hl2
                  simp [deqs] at hl2
                  omega
              | nil =>
                obtain ⟨A2, B2, C2⟩ := ih
                  (bidi_enqueue_fwd c d (links_or_empty env c) qf' vf pf
                    (add_nbr_edges st c (links_or_empty env c))).1
                  ((cb, db) :: qb')
                  (bidi_enqueue_fwd c d (links_or_empty env c) qf' vf pf
                    (add_nbr_edges st c (links_or_empty env c))).2.1
                  vb
                  (bidi_enqueue_fwd c d (links_or_empty env c) qf' vf pf
                    (add_nbr_edges st c (links_or_empty env c))).2.2.1
                  pb (vc + 1)
                  (bidi_enqueue_fwd c d (links_or_empty env c) qf' vf pf
                    (add_nbr_edges st c (links_or_empty env c))).2.2.2.1
                  hfuel' hvc2
                simp only [deqs, deqs_append, bidi_enqueue_fwd_deqs_nil, List.nil_append,
                  List.length_cons]
                refine ⟨by omega, ?_, ?_⟩
                · intro e he
                  obtain ⟨he1, he2⟩ := B2 e he
                  exact ⟨he1, by omega⟩
                · intro hl2
                  exact C2 (by omega)
        · rw [if_neg hlen]
          by_cases hcap : vc + 1 > maxVisited
          · rw [if_pos hcap]
            refine ⟨by simp [deqs] <;> omega, ?_, ?_⟩
            · intro e he
              cases he
              exact ⟨rfl, by simp [deqs] <;> omega⟩
            · intro _
              rfl
          · have hvc2 : vc + 1 ≤ maxVisited := by omega
            rw [if_neg hcap]
            by_cases hdep : maxDepth ≤ db
            · rw [if_pos hdep]
              obtain ⟨A2, B2, C2⟩ := ih ((c, d) :: qf') qb' vf vb pf pb (vc + 1) st
                hfuel' hvc2
              refine ⟨?_, ?_, ?_⟩
              · simp only [deqs, List.length_cons]
                omega
              · intro e he
                obtain ⟨he1, he2⟩ := B2 e he
                refine ⟨he1, ?_⟩
                simp only [deqs, List.length_cons]
                omega
              · intro hl2
                simp only [deqs, List.length_cons] at hl2
                exact C2 (by omega)
            · rw [if_neg hdep]
              cases hint : (linkshere_or_empty env cb).filter (fun n => decide (n ∈ vf)) with
              | cons meet rest =>
                refine ⟨by simp [deqs] <;> omega, ?_, ?_⟩
                · intro e he
                  cases he
                · intro hl2
                  simp [deqs] at hl2
                  omega
              | nil =>
                obtain ⟨A2, B2, C2⟩ := ih
                  ((c, d) :: qf')
                  (bidi_enqueue_bwd cb db (linkshere_or_empty env cb) qb' vb pb
                    (add_in_edges st cb (linkshere_or_empty env cb))).1
                  vf
                  (bidi_enqueue_bwd cb db (linkshere_or_empty env cb) qb' vb pb
                    (add_in_edges st cb (linkshere_or_empty env cb))).2.1
                  pf
                  (bidi_enqueue_bwd cb db (linkshere_or_empty env cb) qb' vb pb
                    (add_in_edges st cb (linkshere_or_empty env cb))).2.2.1
                  (vc + 1)
                  (bidi_enqueue_bwd cb db (linkshere_or_empty env cb) qb' vb pb
                    (add_in_edges st cb (linkshere_or_empty env cb))).2.2.2.1
                  hfuel' hvc2
                simp only [deqs, deqs_append, bidi_enqueue_bwd_deqs_nil, List.nil_append,
                  List.length_cons]
                refine ⟨by omega, ?_, ?_⟩
                · intro e he
                  obtain ⟨he1, he2⟩ := B2 e he
                  exact ⟨he1, by omega⟩
                · intro hl2
                  exact C2 (by omega)

/-- The heuristic score only reads the similarity function of the
environment. -/
theorem title_score_congr (env env' : WikiEnv) (hsim : env'.sim = env.sim)
    (c t : String) : _title_score env' c t = _title_score env c t := by
  rw [_title_score, _title_score, hsim]

/-- The scored-neighbor list only reads the similarity function. -/
theorem best_scored_congr (env env' : WikiEnv) (hsim : env'.sim = env.sim)
    (target : Title) (visited : List Title) (ns : List Title) :
    best_scored env' target visited ns = best_scored env target visited ns := by
  rw [best_scored, best_scored]
  simp only [title_score_congr env env' hsim]

/-- The BFS loop reads the environment only through the caught link
function. -/
theorem bfs_loop_congr (env env' : WikiEnv) (target : Title) (maxDepth maxVisited : Nat)
    (hl : ∀ u, links_or_empty env' u = links_or_empty env u) :
    ∀ (fuel : Nat) (q : List BfsEntry) (visited : List Title) (vc : Nat) (st : Crawl),
      maxVisited + 1 - vc ≤ fuel →
      bfs_loop env' target maxDepth maxVisited q visited vc st
        = bfs_loop env target maxDepth maxVisited q visited vc st := by
  intro fuel
  induction fuel with
  | zero =>
    intro q visited vc st hfuel
    cases q with
    | nil =>
      conv_lhs => rw [bfs_loop.eq_def]
      conv_rhs => rw [bfs_loop.eq_def]
    | cons e0 q' =>
      obtain ⟨current, path, depth⟩ := e0
      have hcap : vc + 1 > maxVisited := by omega
      conv_lhs => rw [bfs_loop.eq_def]
      conv_rhs => rw [bfs_loop.eq_def]
      dsimp only
      simp only [if_pos hcap]
  | succ fuel ih =>
    intro q visited vc st hfuel
    cases q with
    | nil =>
      conv_lhs => rw [bfs_loop.eq_def]
      conv_rhs => rw [bfs_loop.eq_def]
    | cons e0 q' =>
      obtain ⟨current, path, depth⟩ := e0
      conv_lhs => rw [bfs_loop.eq_def]
      conv_rhs => rw [bfs_loop.eq_def]
      dsimp only
      rw [hl current]
      by_cases hcap : vc + 1 > maxVisited
      · simp only [if_pos hcap]
      · have hfuel' : maxVisited + 1 - (vc + 1) ≤ fuel := by omega
        simp only [if_neg hcap]
        by_cases hdep : maxDepth ≤ depth
        · simp only [if_pos hdep]
          rw [ih q' visited (vc + 1) st hfuel']
        · simp only [if_neg hdep]
          by_cases htgt : target ∈ links_or_empty env current
          · simp only [if_pos htgt]
          · simp only [if_neg htgt]
            rw [ih _ _ (vc + 1) _ hfuel']

/-- The best-first loop reads the environment only through the caught link
function and the similarity function. -/
theorem bestfirst_loop_congr (env env' : WikiEnv) (target : Title)
    (maxDepth maxVisited maxBranch : Nat)
    (hl : ∀ u, links_or_empty env' u = links_or_empty env u)
    (hsim : env'.sim = env.sim) :
    ∀ (fuel : Nat) (heap : List BEntry) (visited : List Title) (vc uid : Nat) (st : Crawl),
      maxVisited + 1 - vc ≤ fuel →
      bestfirst_loop env' target maxDepth maxVisited maxBranch heap visited vc uid st
        = bestfirst_loop env target maxDepth maxVisited maxBranch heap visited vc uid st := by
  intro fuel
  induction fuel with
  | zero =>
    intro heap visited vc uid st hfuel
    cases hpop : heap_pop heap with
    | none =>
      conv_lhs => rw [bestfirst_loop.eq_def]
      conv_rhs => rw [bestfirst_loop.eq_def]
      rw [hpop]
    | some epair =>
      obtain ⟨e0, heap'⟩ := epair
      have hcap : vc + 1 > maxVisited := by omega
      conv_lhs => rw [bestfirst_loop.eq_def]
      conv_rhs => rw [bestfirst_loop.eq_def]
      rw [hpop]
      dsimp only
      simp only [if_pos hcap]
  | succ fuel ih =>
    intro heap visited vc uid st hfuel
    cases hpop : heap_pop heap with
    | none =>
      conv_lhs => rw [bestfirst_loop.eq_def]
      conv_rhs => rw [bestfirst_loop.eq_def]
      rw [hpop]
    | some epair =>
      obtain ⟨e0, heap'⟩ := epair
      conv_lhs => rw [bestfirst_loop.eq_def]
      conv_rhs => rw [bestfirst_loop.eq_def]
      rw [hpop]
      dsimp only
      rw [hl e0.node, best_scored_congr env env' hsim]
      by_cases hcap : vc + 1 > maxVisited
      · simp only [if_pos hcap]
      · have hfuel' : maxVisited + 1 - (vc + 1) ≤ fuel := by omega
        simp only [if_neg hcap]
        by_cases hdep : maxDepth ≤ e0.depth
        · simp only [if_pos hdep]
          rw [ih heap' visited (vc + 1) uid st hfuel']
        · simp only [if_neg hdep]
          by_cases htgt : target ∈ links_or_empty env e0.node
          · simp only [if_pos htgt]
          · simp only [if_neg htgt]
            by_cases hsc : best_scored env target visited (links_or_empty env e0.node) = []
            · simp only [if_pos hsc]
              rw [ih heap' visited (vc + 1) uid _ hfuel']
            · simp only [if_neg hsc]
              rw [ih _ _ (vc + 1) _ _ hfuel']

/-- The bidirectional loop reads the environment only through the two
caught link functions. -/
theorem bidi_loop_congr (env env' : WikiEnv) (start target : Title)
    (maxDepth maxVisited : Nat)
    (hl : ∀ u, links_or_empty env' u = links_or_empty env u)
    (hlh : ∀ u, linkshere_or_empty env' u = linkshere_or_empty env u) :
    ∀ (fuel : Nat) (qf qb : List (Title × Nat)) (vf vb : List Title)
      (pf pb : List (Title × Title)) (vc : Nat) (st : Crawl),
      maxVisited + 1 - vc ≤ fuel →
      bidi_loop env' start target maxDepth maxVisited qf qb vf vb pf pb vc st
        = bidi_loop env start target maxDepth maxVisited qf qb vf vb pf pb vc st := by
  intro fuel
  induction fuel with
  | zero =>
    intro qf qb vf vb pf pb vc st hfuel
    have hcap : vc + 1 > maxVisited := by omega
    cases qf with
    | nil =>
      conv_lhs => rw [bidi_loop.eq_def]
      conv_rhs => rw [bidi_loop.eq_def]
    | cons ef qf' =>
      obtain ⟨c, d⟩ := ef
      cases qb with
      | nil =>
        conv_lhs => rw [bidi_loop.eq_def]
        conv_rhs => rw [bidi_loop.eq_def]
      | cons eb qb' =>
        obtain ⟨cb, db⟩ := eb
        conv_lhs => rw [bidi_loop.eq_def]
        conv_rhs => rw [bidi_loop.eq_def]
        dsimp only
        by_cases hql : ((c, d) :: qf').length ≤ ((cb, db) :: qb').length
        · simp only [if_pos hql, if_pos hcap]
        · simp only [if_neg hql, if_pos hcap]
  | succ fuel ih =>
    intro qf qb vf vb pf pb vc st hfuel
    cases qf with
    | nil =>
      conv_lhs => rw [bidi_loop.eq_def]
      conv_rhs => rw [bidi_loop.eq_def]
    | cons ef qf' =>
      obtain ⟨c, d⟩ := ef
      cases qb with
      | nil =>
        conv_lhs => rw [bidi_loop.eq_def]
        conv_rhs => rw [bidi_loop.eq_def]
      | cons eb qb' =>
        obtain ⟨cb, db⟩ := eb
        conv_lhs => rw [bidi_loop.eq_def]
        conv_rhs => rw [bidi_loop.eq_def]
        dsimp only
        rw [hl c, hlh cb]
        by_cases hql : ((c, d) :: qf').length ≤ ((cb, db) :: qb').length
        · simp only [if_pos hql]
          by_cases hcap : vc + 1 > maxVisited
          · simp only [if_pos hcap]
          · have hfuel' : maxVisited + 1 - (vc + 1) ≤ fuel := by omega
            simp only [if_neg hcap]
            by_cases hdep : maxDepth ≤ d
            · simp only [if_pos hdep]
              rw [ih qf' ((cb, db) :: qb') vf vb pf pb (vc + 1) st hfuel']
            · simp only [if_neg hdep]
              cases hint : (links_or_empty env c).filter (fun n => decide (n ∈ vb)) with
              | cons meet rest => rfl
              | nil => rw [ih _ ((cb, db) :: qb') _ vb _ pb (vc + 1) _ hfuel']
        · simp only [if_neg hql]
          by_cases hcap : vc + 1 > maxVisited
          · simp only [if_pos hcap]
          · have hfuel' : maxVisited + 1 - (vc + 1) ≤ fuel := by omega
            simp only [if_neg hcap]
            by_cases hdep : maxDepth ≤ db
            · simp only [if_pos hdep]
              rw [ih ((c, d) :: qf') qb' vf vb pf pb (vc + 1) st hfuel']
            · simp only [if_neg hdep]
              cases hint : (linkshere_or_empty env cb).filter (fun n => decide (n ∈ vf)) with
              | cons meet rest => rfl
              | nil => rw [ih ((c, d) :: qf') _ vf _ pf _ (vc + 1) _ hfuel']

/-- Patching one failing outgoing-link fetch to return the empty set leaves
the caught link function unchanged. -/
theorem links_or_empty_patch (env : WikiEnv) (r : Title) (emsg : String)
    (herr : env.fetchLinks r = .error emsg) (u : Title) :
    links_or_empty
      { env with fetchLinks := fun u2 => if u2 = r then .ok [] else env.fetchLinks u2 } u
      = links_or_empty env u := by
  rw [links_or_empty, links_or_empty, links_of, links_of]
  dsimp only
  cases hres : env.resolve u with
  | none => rfl
  | some r2 =>
    dsimp only
    by_cases h2 : r2 = r
    · subst h2
      rw [herr, if_pos rfl]
      rfl
    · rw [if_neg h2]

/-- Patching one failing incoming-link fetch to return the empty set leaves
the caught incoming-link function unchanged. -/
theorem linkshere_or_empty_patch (env : WikiEnv) (r : Title) (emsg : String)
    (herr : env.fetchLinkshere r = .error emsg) (u : Title) :
    linkshere_or_empty
      { env with fetchLinkshere := fun u2 => if u2 = r then .ok [] else env.fetchLinkshere u2 } u
      = linkshere_or_empty env u := by
  rw [linkshere_or_empty, linkshere_or_empty, linkshere_of, linkshere_of]
  dsimp only
  cases hres : env.resolve u with
  | none => rfl
  | some r2 =>
    dsimp only
    by_cases h2 : r2 = r
    · subst h2
      rw [herr, if_pos rfl]
      rfl
    · rw [if_neg h2]

/-- C8.  The search layer recovers from failures in exactly two ways.  Each
of the three search functions dequeues at most `max_visited + 1` nodes and
returns the visited-cap `RuntimeError` precisely when the count of dequeued
nodes exceeds `max_visited` (and that is the only error a running search
raises).  And a per-node link fetch that raises is equivalent to one that
returns the empty set: replacing a single failing fetch by an empty result
changes nothing about any of the searches, which continue identically. -/
theorem claim_C8 (env : WikiEnv) (st : Crawl) (s t : Title) (md mv mb : Nat) :
    ((deqs (find_path_bfs env st s t md mv).2.2).length ≤ mv + 1 ∧
     ((find_path_bfs env st s t md mv).1
        = .error (.runtimeError "Visited cap exceeded; aborting")
      ↔ (deqs (find_path_bfs env st s t md mv).2.2).length = mv + 1)) ∧
    ((deqs (find_path_best_first env st s t md mv mb).2.2).length ≤ mv + 1 ∧
     ((find_path_best_first env st s t md mv mb).1
        = .error (.runtimeError "Visited cap exceeded; aborting")
      ↔ (deqs (find_path_best_first env st s t md mv mb).2.2).length = mv + 1)) ∧
    ((deqs (find_path_bidi env st s t md mv).2.2).length ≤ mv + 1 ∧
     ((find_path_bidi env st s t md mv).1
        = .error (.runtimeError "Visited cap exceeded; aborting")
      ↔ (deqs (find_path_bidi env st s t md mv).2.2).length = mv + 1)) ∧
    (∀ (r : Title) (emsg : String), env.fetchLinks r = .error emsg →
      find_path_bfs
        { env with fetchLinks := fun u => if u = r then .ok [] else env.fetchLinks u }
        st s t md mv = find_path_bfs env st s t md mv ∧
      find_path_best_first
        { env with fetchLinks := fun u => if u = r then .ok [] else env.fetchLinks u }
        st s t md mv mb = find_path_best_first env st s t md mv mb ∧
      find_path_bidi
        { env with fetchLinks := fun u => if u = r then .ok [] else env.fetchLinks u }
        st s t md mv = find_path_bidi env st s t md mv) ∧
    (∀ (r : Title) (emsg : String), env.fetchLinkshere r = .error emsg →
      find_path_bidi
        { env with fetchLinkshere := fun u => if u = r then .ok [] else env.fetchLinkshere u }
        st s t md mv = find_path_bidi env st s t md mv) := by
  refine ⟨?_, ?_, ?_, ?_, ?_⟩
  · rw [find_path_bfs]
    cases hrs : env.resolve s with
    | none =>
      dsimp only
      exact ⟨by simp [deqs], by constructor <;> intro h <;> simp [deqs] at h <;> omega⟩
    | some start =>
      dsimp only
      cases hrt : env.resolve t with
      | none =>
        dsimp only
        exact ⟨by simp [deqs], by constructor <;> intro h <;> simp [deqs] at h <;> omega⟩
      | some target =>
        dsimp only
        by_cases hst : start = target
        · rw [if_pos hst]
          exact ⟨by simp [deqs], by constructor <;> intro h <;> simp [deqs] at h <;> omega⟩
        · rw [if_neg hst]
          obtain ⟨A, B, C⟩ := bfs_loop_cap env target md mv (mv + 1)
            [(start, [start], 0)] [start] 0
            { graph := { nodes := [start], edges := [] }, dec := [] }
            (by omega) (by omega)
          refine ⟨by simpa using A, ?_, ?_⟩
          · intro h
            have h2 := (B _ h).2
            omega
          · intro h
            exact C (by omega)
  · rw [find_path_best_first]
    cases hrs : env.resolve s with
    | none =>
      dsimp only
      exact ⟨by simp [deqs], by constructor <;> intro h <;> simp [deqs] at h <;> omega⟩
    | some start =>
      dsimp only
      cases hrt : env.resolve t with
      | none =>
        dsimp only
        exact ⟨by simp [deqs], by constructor <;> intro h <;> simp [deqs] at h <;> omega⟩
      | some target =>
        dsimp only
        by_cases hst : start = target
        · rw [if_pos hst]
          exact ⟨by simp [deqs], by constructor <;> intro h <;> simp [deqs] at h <;> omega⟩
        · rw [if_neg hst]
          obtain ⟨A, B, C⟩ := bestfirst_loop_cap env target md mv mb (mv + 1)
            [⟨-(_title_score env start target), 0, 0, start, [start]⟩] [start] 0 1
            { graph := { nodes := [start], edges := [] }, dec := [] }
            (by omega) (by omega)
          refine ⟨by simpa using A, ?_, ?_⟩
          · intro h
            have h2 := (B _ h).2
            omega
          · intro h
            exact C (by omega)
  · rw [find_path_bidi]
    cases hrs : env.resolve s with
    | none =>
      dsimp only
      exact ⟨by simp [deqs], by constructor <;> intro h <;> simp [deqs] at h <;> omega⟩
    | some start =>
      dsimp only
      cases hrt : env.resolve t with
      | none =>
        dsimp only
        exact ⟨by simp [deqs], by constructor <;> intro h <;> simp [deqs] at h <;> omega⟩
      | some target =>
        dsimp only
        by_cases hst : start = target
        · rw [if_pos hst]
          exact ⟨by simp [deqs], by constructor <;> intro h <;> simp [deqs] at h <;> omega⟩
        · rw [if_neg hst]
          obtain ⟨A, B, C⟩ := bidi_loop_cap env start target md mv (mv + 1)
            [(start, 0)] [(target, 0)] [start] [target] [] [] 0
            { graph := { nodes := [start, target], edges := [] }, dec := [] }
            (by omega) (by omega)
          refine ⟨by simpa using A, ?_, ?_⟩
          · intro h
            have h2 := (B _ h).2
            omega
          · intro h
            exact C (by omega)
  · intro r emsg herr
    have hl := links_or_empty_patch env r emsg herr
    have hlh : ∀ u, linkshere_or_empty
        { env with fetchLinks := fun u2 => if u2 = r then .ok [] else env.fetchLinks u2 } u
        = linkshere_or_empty env u := fun u => rfl
    have hsim : ({ env with fetchLinks := fun u2 => if u2 = r then (Except.ok [] : Except String (List Title)) else env.fetchLinks u2 } : WikiEnv).sim = env.sim := rfl
    refine ⟨?_, ?_, ?_⟩
    · rw [find_path_bfs, find_path_bfs]
      dsimp only
      cases hrs : env.resolve s with
      | none => rfl
      | some start =>
        dsimp only
        cases hrt : env.resolve t with
        | none => rfl
        | some target =>
          dsimp only
          by_cases hst : start = target
          · simp only [if_pos hst]
          · simp only [if_neg hst]
            exact bfs_loop_congr env _ target md mv hl (mv + 1) _ _ 0 _ (by omega)
    · rw [find_path_best_first, find_path_best_first]
      dsimp only
      cases hrs : env.resolve s with
      | none => rfl
      | some start =>
        dsimp only
        cases hrt : env.resolve t with
        | none => rfl
        | some target =>
          dsimp only
          by_cases hst : start = target
          · simp only [if_pos hst]
          · simp only [if_neg hst]
            rw [title_score_congr env _ hsim start target]
            exact bestfirst_loop_congr env _ target md mv mb hl hsim (mv + 1) _ _ 0 1 _
              (by omega)
    · rw [find_path_bidi, find_path_bidi]
      dsimp only
      cases hrs : env.resolve s with
      | none => rfl
      | some start =>
        dsimp only
        cases hrt : env.resolve t with
        | none => rfl
        | some target =>
          dsimp only
          by_cases hst : start = target
          · simp only [if_pos hst]
          · simp only [if_neg hst]
            exact bidi_loop_congr env _ start target md mv hl hlh (mv + 1)
              _ _ _ _ _ _ 0 _ (by omega)
  · intro r emsg herr
    have hlh := linkshere_or_empty_patch env r emsg herr
    have hl : ∀ u, links_or_empty
        { env with fetchLinkshere := fun u2 =>
          if u2 = r then .ok [] else env.fetchLinkshere u2 } u
        = links_or_empty env u := fun u => rfl
    rw [find_path_bidi, find_path_bidi]
    dsimp only
    cases hrs : env.resolve s with
    | none => rfl
    | some start =>
      dsimp only
      cases hrt : env.resolve t with
      | none => rfl
      | some target =>
        dsimp only
        by_cases hst : start = target
        · simp only [if_pos hst]
        · simp only [if_neg hst]
          exact bidi_loop_congr env _ start target md mv hl hlh (mv + 1)
            _ _ _ _ _ _ 0 _ (by omega)

/-- Witness for C8 on the chain wiki with the fetch of `B` failing:
replacing the failing fetch by the empty set leaves the BFS run unchanged. -/
theorem claim_C8_witness :
    envErr.fetchLinks "B" = .error "boom" ∧
    find_path_bfs
      { envErr with fetchLinks := fun u => if u = "B" then .ok [] else envErr.fetchLinks u }
      st00 "S" "T" 6 100 = find_path_bfs envErr st00 "S" "T" 6 100 := by
  exact ⟨rfl, ((claim_C8 envErr st00 "S" "T" 6 100 50).2.2.2.1 "B" "boom" rfl).1⟩

/-- In a list with a witness of `P`, there is a suffix headed by the last
witness: its head satisfies `P` and nothing after it does. -/
theorem exists_last_suffix {α : Type} (P : α → Prop) :
    ∀ (l : List α), (∃ x ∈ l, P x) →
      ∃ a t2, (a :: t2) <:+ l ∧ P a ∧ ∀ x ∈ t2, ¬ P x := by
  intro l
  induction l with
  | nil =>
    intro h
    simp at h
  | cons x rest ih =>
    intro h
    by_cases hr : ∃ y ∈ rest, P y
    · obtain ⟨a, t2, hsuf, hPa, ht⟩ := ih hr
      exact ⟨a, t2, hsuf.trans (List.suffix_cons x rest), hPa, ht⟩
    · push_neg at hr
      have hPx : P x := by
        obtain ⟨y, hy, hPy⟩ := h
        rcases List.mem_cons.mp hy with rfl | hy2
        · exact hPy
        · exact absurd hPy (hr y hy2)
      exact ⟨x, rest, List.suffix_refl _, hPx, hr⟩

/-- A constant list is monotone. -/
theorem pairwise_le_const {α : Type} (l : List α) (k : Nat) :
    List.Pairwise (fun a b : Nat => a ≤ b) (l.map fun _ => k) := by
  induction l with
  | nil => exact List.Pairwise.nil
  | cons x xs ih =>
    rw [List.map_cons]
    refine List.pairwise_cons.mpr ⟨?_, ih⟩
    intro y hy
    obtain ⟨z, hz, rfl⟩ := List.mem_map.mp hy
    exact le_refl k

/-- Extending a link path by one more link. -/
theorem ValidPath.snoc (env : WikiEnv) (s c b : Title) (p : List Title)
    (h : ValidPath env s c p) (hadj : adjacent env c b) :
    ValidPath env s b (p ++ [b]) := by
  obtain ⟨hch, hhd, hlast⟩ := h
  refine ⟨?_, ?_, List.getLast?_concat p⟩
  · refine List.chain'_append.mpr ⟨hch, List.chain'_singleton b, ?_⟩
    intro x hx y hy
    simp only [List.head?_cons, Option.mem_def, Option.some.injEq] at hy
    subst hy
    rw [hlast] at hx
    simp only [Option.mem_def, Option.some.injEq] at hx
    subst hx
    exact hadj
  · rw [List.head?_append, hhd]
    rfl

/-- Once every queued node sits at the depth cap, the BFS loop can only
drain the queue or hit the visited cap: it never returns a path. -/
theorem bfs_loop_no_result_of_deep (env : WikiEnv) (target : Title)
    (maxDepth maxVisited : Nat) :
    ∀ (fuel : Nat) (q : List BfsEntry) (visited : List Title) (vc : Nat) (st : Crawl)
      (out : List Title),
      maxVisited + 1 - vc ≤ fuel →
      (∀ e ∈ q, maxDepth ≤ e.2.2) →
      (bfs_loop env target maxDepth maxVisited q visited vc st).1 ≠ .ok (some out) := by
  intro fuel
  induction fuel with
  | zero =>
    intro q visited vc st out hfuel hdeep hq
    cases q with
    | nil =>
      rw [show (bfs_loop env target maxDepth maxVisited [] visited vc st) =
        (.ok none, st, []) from by rw [bfs_loop.eq_def]] at hq
      cases hq
    | cons e0 q' =>
      obtain ⟨c, path, d⟩ := e0
      have hcap : vc + 1 > maxVisited := by omega
      rw [show (bfs_loop env target maxDepth maxVisited ((c, path, d) :: q') visited vc st) =
        (.error (.runtimeError "Visited cap exceeded; aborting"), st, [Ev.deq c]) from by
          rw [bfs_loop.eq_def]
          dsimp only
          rw [if_pos hcap]] at hq
      cases hq
  | succ fuel ih =>
    intro q visited vc st out hfuel hdeep hq
    cases q with
    | nil =>
      rw [show (bfs_loop env target maxDepth maxVisited [] visited vc st) =
        (.ok none, st, []) from by rw [bfs_loop.eq_def]] at hq
      cases hq
    | cons e0 q' =>
      obtain ⟨c, path, d⟩ := e0
      by_cases hcap : vc + 1 > maxVisited
      · rw [show (bfs_loop env target maxDepth maxVisited ((c, path, d) :: q') visited vc st) =
          (.error (.runtimeError "Visited cap exceeded; aborting"), st, [Ev.deq c]) from by
            rw [bfs_loop.eq_def]
            dsimp only
            rw [if_pos hcap]] at hq
        cases hq
      · have hdep : maxDepth ≤ d := hdeep (c, path, d) (by simp)
        rw [show (bfs_loop env target maxDepth maxVisited ((c, path, d) :: q') visited vc st) =
          ((bfs_loop env target maxDepth maxVisited q' visited (vc + 1) st).1,
           (bfs_loop env target maxDepth maxVisited q' visited (vc + 1) st).2.1,
           Ev.deq c :: (bfs_loop env target maxDepth maxVisited q' visited (vc + 1) st).2.2)
          from by
            rw [bfs_loop.eq_def]
            dsimp only
            rw [if_neg hcap, if_pos hdep]] at hq
        exact ih q' visited (vc + 1) st out (by omega)
          (fun e he => hdeep e (by simp [he])) hq

/-- Correctness of the BFS loop.  Starting from a queue whose entries carry
valid paths of length one more than their recorded depth, whose depths are
monotone and span at most two consecutive levels, whose nodes are visited,
with the target unvisited, and such that every path from the start to an
unvisited node crosses the frontier (it has a suffix headed by a queued
node, positioned no earlier than that node's depth, with nothing visited
after it), any path the loop returns is a valid link path from start to
target and no valid link path from start to target is shorter. -/
theorem bfs_loop_shortest (env : WikiEnv) (start target : Title)
    (maxDepth maxVisited : Nat) :
    ∀ (fuel : Nat) (q : List BfsEntry) (visited : List Title) (vc : Nat) (st : Crawl)
      (out : List Title),
      maxVisited + 1 - vc ≤ fuel →
      (∀ e ∈ q, ValidPath env start e.1 e.2.1 ∧ e.2.1.length = e.2.2 + 1) →
      List.Pairwise (fun a b : Nat => a ≤ b) (q.map (fun e : BfsEntry => e.2.2)) →
      (∀ d1 ∈ q.map (fun e : BfsEntry => e.2.2), ∀ d2 ∈ q.map (fun e : BfsEntry => e.2.2),
        d1 ≤ d2 + 1) →
      (∀ e ∈ q, e.1 ∈ visited) →
      target ∉ visited →
      (∀ m p2, m ∉ visited → ValidPath env start m p2 →
        ∃ e ∈ q, ∃ t2, (e.1 :: t2) <:+ p2 ∧ e.2.2 + t2.length + 1 ≤ p2.length ∧
          ∀ x ∈ t2, x ∉ visited) →
      (bfs_loop env target maxDepth maxVisited q visited vc st).1 = .ok (some out) →
      ValidPath env start target out ∧
      ∀ p2, ValidPath env start target p2 → out.length ≤ p2.length := by
  intro fuel
  induction fuel with
  | zero =>
    intro q visited vc st out hfuel hA hB1 hB2 hD htv hC5 hq
    cases q with
    | nil =>
      rw [show (bfs_loop env target maxDepth maxVisited [] visited vc st) =
        (.ok none, st, []) from by rw [bfs_loop.eq_def]] at hq
      cases hq
    | cons e0 q' =>
      obtain ⟨c, path, d⟩ := e0
      have hcap : vc + 1 > maxVisited := by omega
      rw [show (bfs_loop env target maxDepth maxVisited ((c, path, d) :: q') visited vc st) =
        (.error (.runtimeError "Visited cap exceeded; aborting"), st, [Ev.deq c]) from by
          rw [bfs_loop.eq_def]
          dsimp only
          rw [if_pos hcap]] at hq
      cases hq
  | succ fuel ih =>
    intro q visited vc st out hfuel hA hB1 hB2 hD htv hC5 hq
    cases q with
    | nil =>
      rw [show (bfs_loop env target maxDepth maxVisited [] visited vc st) =
        (.ok none, st, []) from by rw [bfs_loop.eq_def]] at hq
      cases hq
    | cons e0 q' =>
      obtain ⟨c, path, d⟩ := e0
      obtain ⟨hvalid_c, hlen_c⟩ := hA (c, path, d) (by simp)
      have hc_vis : c ∈ visited := hD (c, path, d) (by simp)
      simp only [List.map_cons] at hB1 hB2
      have hfront_min : ∀ y ∈ q'.map (fun e : BfsEntry => e.2.2), d ≤ y :=
        (List.pairwise_cons.mp hB1).1
      have hedepth_ge : ∀ e ∈ (c, path, d) :: q', d ≤ e.2.2 := by
        intro e he
        rcases List.mem_cons.mp he with rfl | he'
        · exact le_refl d
        · exact hfront_min _ (List.mem_map_of_mem _ he')
      by_cases hcap : vc + 1 > maxVisited
      · rw [show (bfs_loop env target maxDepth maxVisited ((c, path, d) :: q') visited vc st) =
          (.error (.runtimeError "Visited cap exceeded; aborting"), st, [Ev.deq c]) from by
            rw [bfs_loop.eq_def]
            dsimp only
            rw [if_pos hcap]] at hq
        cases hq
      · have hfuel' : maxVisited + 1 - (vc + 1) ≤ fuel := by omega
        by_cases hdep : maxDepth ≤ d
        · rw [show (bfs_loop env target maxDepth maxVisited ((c, path, d) :: q') visited vc st) =
            ((bfs_loop env target maxDepth maxVisited q' visited (vc + 1) st).1,
             (bfs_loop env target maxDepth maxVisited q' visited (vc + 1) st).2.1,
             Ev.deq c :: (bfs_loop env target maxDepth maxVisited q' visited (vc + 1) st).2.2)
            from by
              rw [bfs_loop.eq_def]
              dsimp only
              rw [if_neg hcap, if_pos hdep]] at hq
          exact absurd hq (bfs_loop_no_result_of_deep env target maxDepth maxVisited fuel
            q' visited (vc + 1) st out hfuel'
            (fun e he => le_trans hdep (hfront_min _ (List.mem_map_of_mem _ he))))
        · by_cases htgt : target ∈ links_or_empty env c
          · rw [show (bfs_loop env target maxDepth maxVisited ((c, path, d) :: q') visited
                vc st) =
              (.ok (some (path ++ [target])),
               setDec (add_nbr_edges st c (links_or_empty env c)) (c, target)
                 ⟨"bfs", some (d + 1), none, "direct neighbor - target found"⟩,
               [Ev.deq c, Ev.fl c]) from by
                rw [bfs_loop.eq_def]
                dsimp only
                rw [if_neg hcap, if_neg hdep, if_pos htgt]] at hq
            simp only [Except.ok.injEq, Option.some.injEq] at hq
            subst hq
            constructor
            · exact ValidPath.snoc env start c target path hvalid_c htgt
            · intro p2 hp2
              obtain ⟨e, he, t2, hsuf, hbound, ht2⟩ := hC5 target p2 htv hp2
              have hde : d ≤ e.2.2 := hedepth_ge e he
              have ht2ne : t2 ≠ [] := by
                intro hnil
                subst hnil
                obtain ⟨pre, hpre⟩ := hsuf
                have hlast : p2.getLast? = some e.1 := by
                  rw [← hpre]
                  exact List.getLast?_concat pre
                rw [hp2.2.2] at hlast
                simp only [Option.some.injEq] at hlast
                exact htv (hlast ▸ hD e he)
              have ht2len : 1 ≤ t2.length := by
                cases t2 with
                | nil => exact absurd rfl ht2ne
                | cons w t3 => simp
              have hout_len : (path ++ [target]).length = d + 2 := by
                simp [hlen_c]
              omega
          · have hnbr : (links_or_empty env c).Nodup := nodup_links_or_empty env c
            obtain ⟨her1, her2, her3⟩ := bfs_enqueue_spec c path d
              (links_or_empty env c) q' visited
              (add_nbr_edges st c (links_or_empty env c)) hnbr
            have hnew_mem : ∀ x, x ∈ (links_or_empty env c).filter
                (fun n => decide (n ∉ visited)) ↔
                (x ∈ links_or_empty env c ∧ x ∉ visited) := by
              intro x
              simp [List.mem_filter]
            have hvis' : ∀ x, x ∈ (bfs_enqueue c path d (links_or_empty env c) q' visited
                (add_nbr_edges st c (links_or_empty env c))).2.1 ↔
                (x ∈ (links_or_empty env c).filter (fun n => decide (n ∉ visited)) ∨
                  x ∈ visited) := by
              intro x
              rw [her2]
              simp [List.mem_append, List.mem_reverse]
            rw [show (bfs_loop env target maxDepth maxVisited ((c, path, d) :: q') visited
                vc st) =
              ((bfs_loop env target maxDepth maxVisited
                 (bfs_enqueue c path d (links_or_empty env c) q' visited
                   (add_nbr_edges st c (links_or_empty env c))).1
                 (bfs_enqueue c path d (links_or_empty env c) q' visited
                   (add_nbr_edges st c (links_or_empty env c))).2.1
                 (vc + 1)
                 (bfs_enqueue c path d (links_or_empty env c) q' visited
                   (add_nbr_edges st c (links_or_empty env c))).2.2.1).1,
               (bfs_loop env target maxDepth maxVisited
                 (bfs_enqueue c path d (links_or_empty env c) q' visited
                   (add_nbr_edges st c (links_or_empty env c))).1
                 (bfs_enqueue c path d (links_or_empty env c) q' visited
                   (add_nbr_edges st c (links_or_empty env c))).2.1
                 (vc + 1)
                 (bfs_enqueue c path d (links_or_empty env c) q' visited
                   (add_nbr_edges st c (links_or_empty env c))).2.2.1).2.1,
               Ev.deq c :: Ev.fl c ::
                 ((bfs_enqueue c path d (links_or_empty env c) q' visited
                    (add_nbr_edges st c (links_or_empty env c))).2.2.2 ++
                  (bfs_loop env target maxDepth maxVisited
                    (bfs_enqueue c path d (links_or_empty env c) q' visited
                      (add_nbr_edges st c (links_or_empty env c))).1
                    (bfs_enqueue c path d (links_or_empty env c) q' visited
                      (add_nbr_edges st c (links_or_empty env c))).2.1
                    (vc + 1)
                    (bfs_enqueue c path d (links_or_empty env c) q' visited
                      (add_nbr_edges st c (links_or_empty env c))).2.2.1).2.2)) from by
                rw [bfs_loop.eq_def]
                dsimp only
                rw [if_neg hcap, if_neg hdep, if_neg htgt]] at hq
            refine ih
              (bfs_enqueue c path d (links_or_empty env c) q' visited
                (add_nbr_edges st c (links_or_empty env c))).1
              (bfs_enqueue c path d (links_or_empty env c) q' visited
                (add_nbr_edges st c (links_or_empty env c))).2.1
              (vc + 1)
              (bfs_enqueue c path d (links_or_empty env c) q' visited
                (add_nbr_edges st c (links_or_empty env c))).2.2.1
              out hfuel' ?_ ?_ ?_ ?_ ?_ ?_ hq
            · -- (A)
              intro e he
              rw [her1] at he
              rcases List.mem_append.mp he with he' | he'
              · exact hA e (by simp [he'])
              · obtain ⟨n, hn, rfl⟩ := List.mem_map.mp he'
                refine ⟨?_, ?_⟩
                · exact ValidPath.snoc env start c n path hvalid_c
                    (show adjacent env c n from ((hnew_mem n).mp hn).1)
                · simp [hlen_c]
            · -- (B1)
              rw [her1, List.map_append, List.map_map]
              have hcomp : ((fun e : BfsEntry => e.2.2) ∘
                  fun n => (n, path ++ [n], d + 1)) = fun _ => d + 1 := rfl
              rw [hcomp]
              refine List.pairwise_append.mpr ⟨(List.pairwise_cons.mp hB1).2,
                pairwise_le_const _ (d + 1), ?_⟩
              intro a ha b hb
              obtain ⟨n, hn, rfl⟩ := List.mem_map.mp hb
              exact hB2 a (by simp [ha]) d (by simp)
            · -- (B2)
              rw [her1, List.map_append, List.map_map]
              have hcomp : ((fun e : BfsEntry => e.2.2) ∘
                  fun n => (n, path ++ [n], d + 1)) = fun _ => d + 1 := rfl
              rw [hcomp]
              intro d1 hd1 d2 hd2
              have hone : ∀ y, y ∈ List.map (fun _ => d + 1)
                  ((links_or_empty env c).filter (fun n => decide (n ∉ visited))) →
                  y = d + 1 := by
                intro y hy
                obtain ⟨n, hn, rfl⟩ := List.mem_map.mp hy
                rfl
              rcases List.mem_append.mp hd1 with h1 | h1
              · rcases List.mem_append.mp hd2 with h2 | h2
                · exact hB2 d1 (by simp [h1]) d2 (by simp [h2])
                · have := hB2 d1 (by simp [h1]) d (by simp)
                  rw [hone d2 h2]
                  omega
              · rcases List.mem_append.mp hd2 with h2 | h2
                · have := hfront_min d2 h2
                  rw [hone d1 h1]
                  omega
                · rw [hone d1 h1, hone d2 h2]
                  omega
            · -- (D)
              intro e he
              rw [her1] at he
              rcases List.mem_append.mp he with he' | he'
              · exact (hvis' e.1).mpr (Or.inr (hD e (by simp [he'])))
              · obtain ⟨n, hn, rfl⟩ := List.mem_map.mp he'
                exact (hvis' n).mpr (Or.inl hn)
            · -- target unvisited
              intro hcon
              rcases (hvis' target).mp hcon with h1 | h1
              · exact htgt ((hnew_mem target).mp h1).1
              · exact htv h1
            · -- (C5)
              intro m p2 hm hp2
              have hm1 : m ∉ visited := fun hv => hm ((hvis' m).mpr (Or.inr hv))
              obtain ⟨e, he, t2, hsuf, hbound, ht2⟩ := hC5 m p2 hm1 hp2
              have hde : d ≤ e.2.2 := hedepth_ge e he
              by_cases hW : ∃ x ∈ t2, x ∈ (links_or_empty env c).filter
                  (fun n => decide (n ∉ visited))
              · obtain ⟨a, t3, hsuf3, ha, ht3⟩ := exists_last_suffix
                  (fun x => x ∈ (links_or_empty env c).filter
                    (fun n => decide (n ∉ visited))) t2 hW
                refine ⟨(a, path ++ [a], d + 1), ?_, t3, ?_, ?_, ?_⟩
                · rw [her1]
                  exact List.mem_append.mpr (Or.inr (List.mem_map.mpr ⟨a, ha, rfl⟩))
                · exact hsuf3.trans ((List.suffix_cons e.1 t2).trans hsuf)
                · have hlen3 : t3.length + 1 ≤ t2.length := by
                    simpa using hsuf3.length_le
                  show d + 1 + t3.length + 1 ≤ p2.length
                  omega
                · intro x hx hvx
                  rcases (hvis' x).mp hvx with h1 | h1
                  · exact ht3 x hx h1
                  · exact ht2 x (hsuf3.subset (List.mem_cons_of_mem a hx)) h1
              · push_neg at hW
                rcases List.mem_cons.mp he with heq | he'
                · exfalso
                  subst heq
                  cases t2 with
                  | nil =>
                    obtain ⟨pre, hpre⟩ := hsuf
                    have hlast : p2.getLast? = some c := by
                      rw [← hpre]
                      exact List.getLast?_concat pre
                    rw [hp2.2.2] at hlast
                    simp only [Option.some.injEq] at hlast
                    exact hm1 (hlast ▸ hc_vis)
                  | cons w t3 =>
                    have hchain := hp2.1.suffix hsuf
                    have hadj : adjacent env c w := (List.chain'_cons.mp hchain).1
                    have hw_unvis : w ∉ visited := ht2 w (by simp)
                    have hw_new : w ∈ (links_or_empty env c).filter
                        (fun n => decide (n ∉ visited)) :=
                      (hnew_mem w).mpr ⟨hadj, hw_unvis⟩
                    exact hW w (by simp) hw_new
                · refine ⟨e, ?_, t2, hsuf, hbound, ?_⟩
                  · rw [her1]
                    exact List.mem_append.mpr (Or.inl he')
                  · intro x hx hvx
                    rcases (hvis' x).mp hvx with h1 | h1
                    · exact hW x hx h1
                    · exact ht2 x hx h1

/-- C1.  When both endpoints resolve, every per-node link fetch succeeds and
a link path from the resolved start to the resolved target of at most
`max_depth` edges exists, any path that `find_path_bfs` returns is a valid
path of the link graph seen through `get_links` and no valid path from
start to target is shorter. -/
theorem claim_C1 (env : WikiEnv) (st : Crawl) (s t : Title) (md mv : Nat)
    (r_s r_t : Title) (out : List Title)
    (hs : env.resolve s = some r_s) (ht : env.resolve t = some r_t)
    (hfetch : ∀ u, ∃ l, env.fetchLinks u = .ok l)
    (hex : ∃ p0, ValidPath env r_s r_t p0 ∧ p0.length ≤ md + 1)
    (hout : (find_path_bfs env st s t md mv).1 = .ok (some out)) :
    ValidPath env r_s r_t out ∧
    ∀ p, ValidPath env r_s r_t p → out.length ≤ p.length := by
  rw [find_path_bfs] at hout
  rw [hs] at hout
  dsimp only at hout
  rw [ht] at hout
  dsimp only at hout
  by_cases hst : r_s = r_t
  · rw [if_pos hst] at hout
    dsimp only at hout
    simp only [Except.ok.injEq, Option.some.injEq] at hout
    subst hout
    subst hst
    refine ⟨⟨List.chain'_singleton r_s, rfl, rfl⟩, ?_⟩
    intro p hp
    cases p with
    | nil => cases hp.2.1
    | cons x rest => simp
  · rw [if_neg hst] at hout
    refine bfs_loop_shortest env r_s r_t md mv (mv + 1) [(r_s, [r_s], 0)] [r_s] 0
      { graph := { nodes := [r_s], edges := [] }, dec := [] } out
      (by omega) ?_ ?_ ?_ ?_ ?_ ?_ hout
    · intro e he
      simp only [List.mem_singleton] at he
      subst he
      exact ⟨⟨List.chain'_singleton r_s, rfl, rfl⟩, rfl⟩
    · simp
    · simp
    · intro e he
      simp only [List.mem_singleton] at he
      subst he
      simp
    · simp only [List.mem_singleton]
      exact fun hcon => hst hcon.symm
    · intro m p2 hm hp2
      have hsmem : r_s ∈ p2 := List.mem_of_mem_head? (by simp [hp2.2.1])
      obtain ⟨a, t3, hsuf, ha, ht3⟩ := exists_last_suffix (fun x => x = r_s) p2
        ⟨r_s, hsmem, rfl⟩
      subst ha
      refine ⟨(a, [a], 0), by simp, t3, hsuf, ?_, ?_⟩
      · have hle := hsuf.length_le
        simp only [List.length_cons] at hle
        show 0 + t3.length + 1 ≤ p2.length
        omega
      · intro x hx
        simp only [List.mem_singleton]
        exact fun hcon => ht3 x hx hcon

unseal bfs_loop in
/-- Witness for C1 on the chain wiki: the BFS run from `S` to `T` returns
`[S, A, B, T]`, which is a valid link path and is no longer than any valid
link path from `S` to `T`. -/
theorem claim_C1_witness :
    envChain.resolve "S" = some "S" ∧ envChain.resolve "T" = some "T" ∧
    (find_path_bfs envChain st00 "S" "T" 6 100).1 = .ok (some ["S", "A", "B", "T"]) ∧
    ValidPath envChain "S" "T" ["S", "A", "B", "T"] ∧
    ∀ p, ValidPath envChain "S" "T" p → (["S", "A", "B", "T"] : List Title).length ≤ p.length := by
  have hfetch : ∀ u, ∃ l, envChain.fetchLinks u = .ok l := by
    intro u
    show ∃ l, (if u = "S" then (Except.ok ["A"] : Except String (List Title))
      else if u = "A" then .ok ["B"] else if u = "B" then .ok ["T"] else .ok []) = .ok l
    by_cases h1 : u = "S"
    · exact ⟨["A"], by rw [if_pos h1]⟩
    · by_cases h2 : u = "A"
      · exact ⟨["B"], by rw [if_neg h1, if_pos h2]⟩
      · by_cases h3 : u = "B"
        · exact ⟨["T"], by rw [if_neg h1, if_neg h2, if_pos h3]⟩
        · exact ⟨[], by rw [if_neg h1, if_neg h2, if_neg h3]⟩
  have hex : ∃ p0, ValidPath envChain "S" "T" p0 ∧ p0.length ≤ 6 + 1 := by
    refine ⟨["S", "A", "B", "T"], ⟨?_, rfl, rfl⟩, by decide⟩
    simp only [List.chain'_cons, List.chain'_singleton, and_true]
    unfold adjacent
    refine ⟨?_, ?_, ?_⟩ <;> decide
  have h := claim_C1 envChain st00 "S" "T" 6 100 "S" "T" ["S", "A", "B", "T"]
    rfl rfl hfetch hex rfl
  exact ⟨rfl, rfl, rfl, h.1, h.2⟩

end Wiki
